import Mathlib

/-!
The instance address codec of abeutil

A shallow embedding of `address/instanceaddress/instanceaddress.go` (package
`instanceaddress`) together with the pieces of the Go standard library it calls
(`encoding/hex`, `crypto/sha256`, `bytes.Compare`, the builtin `copy`).

Conventions of the embedding:

* a Go `byte` is a `Fin 256`; a `[]byte` is a `List Byte` (values only, aliasing is
  not tracked in this part of the development);
* a Go `string` is its sequence of bytes (`GoString`), so `len` and indexing count
  bytes exactly as Go does;
* Go `int` is 64 bits wide (the usual platforms), so a slice may hold `2^32` or more
  bytes; the only narrowing conversion of the program, `uint32(1 + len(..))`, is
  written out as `% 2 ^ 32`;
* a method with a pointer receiver that may assign to the receiver returns the new
  receiver state together with the Go `error` (`none` is `nil`);
* a run-time panic (index out of range) is `none` in an `Option` result.
-/

set_option maxRecDepth 1000000

/-- A Go `byte`. -/
abbrev Byte := Fin 256

/-- A Go `string`, as the sequence of its bytes. -/
abbrev GoString := List Byte

/-- Conversion of a natural number to a byte, keeping the low eight bits. -/
def toByte (n : Nat) : Byte := ⟨n % 256, Nat.mod_lt n (by decide)⟩

/-- The builtin `make([]byte, n)`: `n` zero bytes. -/
def make (n : Nat) : List Byte := List.replicate n 0

/-- The builtin `copy(dst, src)`: the contents of `dst` afterwards. The first
`min (len dst) (len src)` bytes come from `src`, the rest of `dst` is kept. -/
def copy (dst src : List Byte) : List Byte := src.take dst.length ++ dst.drop src.length

namespace bytes

/-- Go `bytes.Compare`: lexicographic comparison, `-1`, `0` or `1`. -/
def Compare : List Byte → List Byte → Int
  | [], [] => 0
  | [], _ :: _ => -1
  | _ :: _, [] => 1
  | x :: xs, y :: ys => if x < y then -1 else if y < x then 1 else Compare xs ys

end bytes

namespace hex

/-- Go `encoding/hex`: `hextable = "0123456789abcdef"`. -/
def hextable : List Byte := [48, 49, 50, 51, 52, 53, 54, 55, 56, 57, 97, 98, 99, 100, 101, 102]

/-- The errors of `encoding/hex`. -/
inductive Error where
  | InvalidByteError (b : Byte)
  | ErrLength
deriving DecidableEq, Repr

/-- Go `hex.EncodeToString`: two characters per byte, `hextable[v>>4]` then
`hextable[v&0x0f]`. -/
def EncodeToString : List Byte → GoString
  | [] => []
  | v :: rest =>
    hextable.getD (v.val >>> 4) 0 :: hextable.getD (v.val &&& 0x0f) 0 :: EncodeToString rest

/-- Go `fromHexChar` (the `reverseHexTable` of later releases): the value of a
hexadecimal digit, in either letter case; `none` for any other byte. -/
def fromHexChar (c : Byte) : Option Nat :=
  if 48 ≤ c.val ∧ c.val ≤ 57 then some (c.val - 48)
  else if 97 ≤ c.val ∧ c.val ≤ 102 then some (c.val - 97 + 10)
  else if 65 ≤ c.val ∧ c.val ≤ 70 then some (c.val - 65 + 10)
  else none

/-- The characters `0-9` and `a-f`, the lower-case hexadecimal digits. -/
def isLowerHexChar (c : Byte) : Bool :=
  (48 ≤ c.val && c.val ≤ 57) || (97 ≤ c.val && c.val ≤ 102)

/-- Go `hex.DecodeString`: pairs of digits are read left to right, the first bad
byte is reported; an odd length is reported after its last character was checked. -/
def DecodeString : GoString → Except Error (List Byte)
  | [] => .ok []
  | [p] =>
    match fromHexChar p with
    | none => .error (.InvalidByteError p)
    | some _ => .error .ErrLength
  | p :: q :: rest =>
    match fromHexChar p with
    | none => .error (.InvalidByteError p)
    | some a =>
      match fromHexChar q with
      | none => .error (.InvalidByteError q)
      | some b =>
        match DecodeString rest with
        | .error e => .error e
        | .ok bs => .ok (toByte (a <<< 4 ||| b) :: bs)

end hex

namespace sha256

/-- The round constants of SHA-256 (FIPS 180-4, 4.2.2). -/
def K : List Nat := [
  0x428a2f98, 0x71374491, 0xb5c0fbcf, 0xe9b5dba5, 0x3956c25b, 0x59f111f1, 0x923f82a4, 0xab1c5ed5,
  0xd807aa98, 0x12835b01, 0x243185be, 0x550c7dc3, 0x72be5d74, 0x80deb1fe, 0x9bdc06a7, 0xc19bf174,
  0xe49b69c1, 0xefbe4786, 0x0fc19dc6, 0x240ca1cc, 0x2de92c6f, 0x4a7484aa, 0x5cb0a9dc, 0x76f988da,
  0x983e5152, 0xa831c66d, 0xb00327c8, 0xbf597fc7, 0xc6e00bf3, 0xd5a79147, 0x06ca6351, 0x14292967,
  0x27b70a85, 0x2e1b2138, 0x4d2c6dfc, 0x53380d13, 0x650a7354, 0x766a0abb, 0x81c2c92e, 0x92722c85,
  0xa2bfe8a1, 0xa81a664b, 0xc24b8b70, 0xc76c51a3, 0xd192e819, 0xd6990624, 0xf40e3585, 0x106aa070,
  0x19a4c116, 0x1e376c08, 0x2748774c, 0x34b0bcb5, 0x391c0cb3, 0x4ed8aa4a, 0x5b9cca4f, 0x682e6ff3,
  0x748f82ee, 0x78a5636f, 0x84c87814, 0x8cc70208, 0x90befffa, 0xa4506ceb, 0xbef9a3f7, 0xc67178f2]

/-- The eight 32-bit working words of the digest. -/
structure State where
  a : Nat
  b : Nat
  c : Nat
  d : Nat
  e : Nat
  f : Nat
  g : Nat
  h : Nat
deriving DecidableEq, Repr

/-- The initial hash value (FIPS 180-4, 5.3.3). -/
def init : State :=
  ⟨0x6a09e667, 0xbb67ae85, 0x3c6ef372, 0xa54ff53a, 0x510e527f, 0x9b05688c, 0x1f83d9ab, 0x5be0cd19⟩

/-- Rotation to the right of a 32-bit word. -/
def rotr (n x : Nat) : Nat := ((x >>> n) ||| (x <<< (32 - n))) % 2 ^ 32

def ch (x y z : Nat) : Nat := (x &&& y) ^^^ ((x ^^^ 0xffffffff) &&& z)
def maj (x y z : Nat) : Nat := (x &&& y) ^^^ (x &&& z) ^^^ (y &&& z)
def bsig0 (x : Nat) : Nat := rotr 2 x ^^^ rotr 13 x ^^^ rotr 22 x
def bsig1 (x : Nat) : Nat := rotr 6 x ^^^ rotr 11 x ^^^ rotr 25 x
def ssig0 (x : Nat) : Nat := rotr 7 x ^^^ rotr 18 x ^^^ (x >>> 3)
def ssig1 (x : Nat) : Nat := rotr 17 x ^^^ rotr 19 x ^^^ (x >>> 10)

/-- One of the 64 rounds. The second component is the window of the sixteen most
recent words of the message schedule, oldest first: the round consumes its head and
appends the next schedule word. -/
def round (sw : State × List Nat) (k : Nat) : State × List Nat :=
  let s := sw.1
  let w := sw.2
  let t1 := (s.h + bsig1 s.e + ch s.e s.f s.g + k + w.getD 0 0) % 2 ^ 32
  let t2 := (bsig0 s.a + maj s.a s.b s.c) % 2 ^ 32
  let nw := (ssig1 (w.getD 14 0) + w.getD 9 0 + ssig0 (w.getD 1 0) + w.getD 0 0) % 2 ^ 32
  (⟨(t1 + t2) % 2 ^ 32, s.a, s.b, s.c, (s.d + t1) % 2 ^ 32, s.e, s.f, s.g⟩, w.drop 1 ++ [nw])

/-- The compression of one 16-word block into the state. -/
def block (s : State) (w : List Nat) : State :=
  let r := (K.foldl round (s, w)).1
  ⟨(s.a + r.a) % 2 ^ 32, (s.b + r.b) % 2 ^ 32, (s.c + r.c) % 2 ^ 32, (s.d + r.d) % 2 ^ 32,
   (s.e + r.e) % 2 ^ 32, (s.f + r.f) % 2 ^ 32, (s.g + r.g) % 2 ^ 32, (s.h + r.h) % 2 ^ 32⟩

/-- The `k` low bytes of `n`, most significant first. -/
def be (n : Nat) : Nat → List Nat
  | 0 => []
  | k + 1 => (n >>> (8 * k)) % 256 :: be n k

/-- Padding: the byte `0x80`, zero bytes up to 56 modulo 64, and the length in bits
as a 64-bit big-endian number. -/
def pad (msg : List Nat) : List Nat :=
  msg ++ 0x80 :: List.replicate ((119 - msg.length % 64) % 64) 0 ++ be (msg.length * 8 % 2 ^ 64) 8

/-- Grouping of bytes into big-endian 32-bit words. -/
def words : List Nat → List Nat
  | a :: b :: c :: d :: rest => (a <<< 24 ||| b <<< 16 ||| c <<< 8 ||| d) :: words rest
  | _ => []

/-- The compression of `n` consecutive blocks. -/
def blocks (s : State) (ws : List Nat) : Nat → State
  | 0 => s
  | n + 1 => blocks (block s (ws.take 16)) (ws.drop 16) n

/-- The digest as 32 bytes, each state word big-endian. -/
def digest (s : State) : List Byte :=
  (be s.a 4 ++ be s.b 4 ++ be s.c 4 ++ be s.d 4 ++ be s.e 4 ++ be s.f 4 ++ be s.g 4
    ++ be s.h 4).map toByte

/-- Go `sha256.Sum256`: the SHA-256 digest of the data. -/
def Sum256 (data : List Byte) : List Byte :=
  let p := pad (data.map Fin.val)
  digest (blocks init (words p) (p.length / 64))

end sha256

namespace instanceaddress

/-- The struct `InstanceAddress`. -/
structure InstanceAddress where
  netID : Byte
  cryptoAddress : List Byte
deriving DecidableEq, Repr

/-- The errors the package returns. The two messages built with `fmt.Sprintf` carry
the input string. -/
inductive AddrError where
  /-- An error of `hex.DecodeString`, returned unchanged. -/
  | hex (e : hex.Error)
  /-- The error with message `abel-address %v has a wrong length`. -/
  | wrongLength (addrStr : GoString)
  /-- The error with message `abel-address %v has a wrong check sum`. -/
  | wrongCheckSum (addrStr : GoString)
  /-- The error with message `byte length of serializedInstAddr does not match the design`. -/
  | lengthMismatch
deriving DecidableEq, Repr

/-- The function `CheckSumLength`. -/
def CheckSumLength : Nat := 32

/-- The function `CheckSum`: SHA-256 applied twice. -/
def CheckSum (b : List Byte) : List Byte :=
  let first := sha256.Sum256 b
  let second := sha256.Sum256 first
  second

/-- The function `NewInstanceAddress`. -/
def NewInstanceAddress (netId : Byte) (cryptoAddress : List Byte) : InstanceAddress :=
  { netID := netId, cryptoAddress := cryptoAddress }

/-- The method `SerializeSize`: `uint32(1 + len(instAddr.cryptoAddress))`. -/
def SerializeSize (instAddr : InstanceAddress) : Nat :=
  (1 + instAddr.cryptoAddress.length) % 2 ^ 32

/-- The method `Serialize`. The assignment `b[0] = instAddr.netID` panics when the
slice made has length zero. -/
def Serialize (instAddr : InstanceAddress) : Option (List Byte) :=
  match make (SerializeSize instAddr) with
  | [] => none
  | _ :: rest => some (instAddr.netID :: copy rest instAddr.cryptoAddress)

/-- The method `Deserialize`: the receiver afterwards, and the error. -/
def Deserialize (instAddr : InstanceAddress) (serializedInstAddr : List Byte) :
    InstanceAddress × Option AddrError :=
  if serializedInstAddr.length ≤ 1 then (instAddr, some .lengthMismatch)
  else
    match serializedInstAddr with
    | [] => (instAddr, some .lengthMismatch)
    | b0 :: rest =>
      ({ netID := b0, cryptoAddress := copy (make (serializedInstAddr.length - 1)) rest }, none)

/-- The method `Encode`. -/
def Encode (instAddr : InstanceAddress) : Option GoString :=
  match Serialize instAddr with
  | none => none
  | some serialized =>
    let checkSum := CheckSum serialized
    let encodeAddrStr := hex.EncodeToString serialized
    some (encodeAddrStr ++ hex.EncodeToString checkSum)

/-- The method `Decode`: the receiver afterwards, and the error. -/
def Decode (instAddr : InstanceAddress) (addrStr : GoString) :
    InstanceAddress × Option AddrError :=
  match hex.DecodeString addrStr with
  | .error err => (instAddr, some (.hex err))
  | .ok addrBytes =>
    let checksumLen := CheckSumLength
    if addrBytes.length ≤ 1 + checksumLen then (instAddr, some (.wrongLength addrStr))
    else
      let serializedInstantAddr := addrBytes.take (addrBytes.length - checksumLen)
      let checkSum := addrBytes.drop (addrBytes.length - checksumLen)
      let checkSumComputed := CheckSum serializedInstantAddr
      if bytes.Compare checkSum checkSumComputed ≠ 0 then
        (instAddr, some (.wrongCheckSum addrStr))
      else
        match Deserialize instAddr serializedInstantAddr with
        | (r, some err) => (r, some err)
        | (r, none) => (r, none)

/-- The method `String`. -/
def String (instAddr : InstanceAddress) : Option GoString :=
  match Serialize instAddr with
  | none => none
  | some serialized => some (hex.EncodeToString serialized)

/-- The method `CryptoAddress`. -/
def CryptoAddress (instAddr : InstanceAddress) : List Byte := instAddr.cryptoAddress

/-- The method `IsForNet`. -/
def IsForNet (instAddr : InstanceAddress) (netId : Byte) : Bool := instAddr.netID == netId

end instanceaddress

/-- The text form of the address `(0x00, [0x01])`, the string
`"0001" ++ "18401e66c2123497a0f993364d894bcebeaba670090c6e3047c1947c596ef395"`. -/
def text0001 : GoString := [
      48, 48, 48, 49, 49, 56, 52, 48, 49, 101, 54, 54, 99, 50, 49, 50, 51, 52, 57, 55, 97, 48,
      102, 57, 57, 51, 51, 54, 52, 100, 56, 57, 52, 98, 99, 101, 98, 101, 97, 98, 97, 54, 55,
      48, 48, 57, 48, 99, 54, 101, 51, 48, 52, 55, 99, 49, 57, 52, 55, 99, 53, 57, 54, 101,
      102, 51, 57, 53]

/-- The text form of the address `(0x00, [0x01, 0x02, 0x03])`, the string
`"00010203" ++ "f7a355c00c89a08c80636bed35556a210b51786f6803a494f28fc5ba05959fc2"`. -/
def text00010203 : GoString := [
      48, 48, 48, 49, 48, 50, 48, 51, 102, 55, 97, 51, 53, 53, 99, 48, 48, 99, 56, 57, 97, 48,
      56, 99, 56, 48, 54, 51, 54, 98, 101, 100, 51, 53, 53, 53, 54, 97, 50, 49, 48, 98, 53, 49,
      55, 56, 54, 102, 54, 56, 48, 51, 97, 52, 57, 52, 102, 50, 56, 102, 99, 53, 98, 97, 48,
      53, 57, 53, 57, 102, 99, 50]

/-- The text form of the single byte `[0x00]`, the string
`"00" ++ "1406e05881e299367766d313e26c05564ec91bf721d31726bd6e46e60689539a"`. -/
def text00 : GoString := [
      48, 48, 49, 52, 48, 54, 101, 48, 53, 56, 56, 49, 101, 50, 57, 57, 51, 54, 55, 55, 54, 54,
      100, 51, 49, 51, 101, 50, 54, 99, 48, 53, 53, 54, 52, 101, 99, 57, 49, 98, 102, 55, 50,
      49, 100, 51, 49, 55, 50, 54, 98, 100, 54, 101, 52, 54, 101, 54, 48, 54, 56, 57, 53, 51,
      57, 97]

/-- The string `not-hex-zz`. -/
def textNotHex : GoString := [110, 111, 116, 45, 104, 101, 120, 45, 122, 122]

/-- The SHA-256 digest of the empty input,
`e3b0c44298fc1c149afbf4c8996fb92427ae41e4649b934ca495991b7852b855`. -/
def sha256Empty : List Byte := [
      227, 176, 196, 66, 152, 252, 28, 20, 154, 251, 244, 200, 153, 111, 185, 36, 39, 174, 65,
      228, 100, 155, 147, 76, 164, 149, 153, 27, 120, 82, 184, 85]

/-- The SHA-256 digest of `sha256Empty`,
`5df6e0e2761359d30a8275058e299fcc0381534545f55cf43e41983f5d4c9456`. -/
def sha256dEmpty : List Byte := [
      93, 246, 224, 226, 118, 19, 89, 211, 10, 130, 117, 5, 142, 41, 159, 204, 3, 129, 83, 69,
      69, 245, 92, 244, 62, 65, 152, 63, 93, 76, 148, 86]

namespace hex

/-- The characters `0-9`, `a-f` and `A-F`, the hexadecimal digits. -/
def isHexChar (c : Byte) : Bool :=
  (48 ≤ c.val && c.val ≤ 57) || (97 ≤ c.val && c.val ≤ 102) || (65 ≤ c.val && c.val ≤ 70)

/-- The letters `A-F` replaced by `a-f`; every other byte is kept. -/
def lowerHex (c : Byte) : Byte :=
  if 65 ≤ c.val ∧ c.val ≤ 70 then toByte (c.val + 32) else c

end hex

namespace instanceaddress

/-- A call of one of the methods of `InstanceAddress` on a receiver, with its
arguments. -/
inductive Call where
  | serializeSize
  | serialize
  | deserialize (serializedInstAddr : List Byte)
  | encode
  | decode (addrStr : GoString)
  | string
  | cryptoAddress
  | isForNet (netId : Byte)
deriving DecidableEq, Repr

/-- The receiver after a call. `Deserialize` and `Decode` assign to its fields; the
bodies of the other six methods contain no assignment to the receiver. -/
def Call.receiverAfter (instAddr : InstanceAddress) : Call → InstanceAddress
  | .deserialize serializedInstAddr => (Deserialize instAddr serializedInstAddr).1
  | .decode addrStr => (Decode instAddr addrStr).1
  | _ => instAddr

end instanceaddress

/-! The same type with the backing arrays of its slices made explicit, for the
questions of who shares storage with whom. -/

namespace heap

/-- A Go slice header: the backing array it points into, the offset of its first
element in that array, and its length. -/
structure Slice where
  arr : Nat
  off : Nat
  len : Nat
deriving DecidableEq, Repr

/-- The memory: the contents of every backing array, and the number of arrays
allocated so far. -/
structure Heap where
  arrays : Nat → List Byte
  next : Nat

/-- The slice expression `s[lo:]`. -/
def Slice.sliceFrom (s : Slice) (lo : Nat) : Slice := ⟨s.arr, s.off + lo, s.len - lo⟩

/-- The bytes a slice shows. -/
def Heap.read (h : Heap) (s : Slice) : List Byte := ((h.arrays s.arr).drop s.off).take s.len

/-- The assignment `s[i] = v`; `none` is the index-out-of-range panic. -/
def Heap.write (h : Heap) (s : Slice) (i : Nat) (v : Byte) : Option Heap :=
  if i < s.len then
    some { h with
      arrays := Function.update h.arrays s.arr ((h.arrays s.arr).set (s.off + i) v) }
  else none

/-- The builtin `make([]byte, n)`: a new backing array of `n` zero bytes. -/
def Heap.make (h : Heap) (n : Nat) : Heap × Slice :=
  ({ arrays := Function.update h.arrays h.next (List.replicate n 0), next := h.next + 1 },
    ⟨h.next, 0, n⟩)

/-- The builtin `copy(dst, src)`: the first `min (len dst) (len src)` bytes of `dst`
are overwritten in its backing array. -/
def Heap.copy (h : Heap) (dst src : Slice) : Heap :=
  let data := (h.read src).take dst.len
  let a := h.arrays dst.arr
  { h with
    arrays := Function.update h.arrays dst.arr
      (a.take dst.off ++ data ++ a.drop (dst.off + data.length)) }

/-- The struct `InstanceAddress`, its field `cryptoAddress` a slice header. -/
structure InstanceAddress where
  netID : Byte
  cryptoAddress : Slice
deriving DecidableEq, Repr

/-- The function `NewInstanceAddress`: the slice header given is stored as it is. -/
def NewInstanceAddress (netId : Byte) (cryptoAddress : Slice) : InstanceAddress :=
  { netID := netId, cryptoAddress := cryptoAddress }

/-- The method `Deserialize`: the memory and the receiver afterwards, and the error. -/
def Deserialize (h : Heap) (instAddr : InstanceAddress) (serializedInstAddr : Slice) :
    Heap × InstanceAddress × Option instanceaddress.AddrError :=
  if serializedInstAddr.len ≤ 1 then (h, instAddr, some .lengthMismatch)
  else
    let netID := (h.read serializedInstAddr).getD 0 0
    let m := h.make (serializedInstAddr.len - 1)
    (m.1.copy m.2 (serializedInstAddr.sliceFrom 1), { netID := netID, cryptoAddress := m.2 },
      none)

/-- The method `CryptoAddress`: the slice header held by the receiver. -/
def CryptoAddress (instAddr : InstanceAddress) : Slice := instAddr.cryptoAddress

/-- The method `Serialize`: the memory afterwards and the slice returned; `none` is
the panic of `b[0] = instAddr.netID` on a slice of length zero. -/
def Serialize (h : Heap) (instAddr : InstanceAddress) : Option (Heap × Slice) :=
  let m := h.make ((1 + instAddr.cryptoAddress.len) % 2 ^ 32)
  match m.1.write m.2 0 instAddr.netID with
  | none => none
  | some h1 => some (h1.copy (m.2.sliceFrom 1) instAddr.cryptoAddress, m.2)

/-- The bytes that `Serialize` returns. -/
def SerializeBytes (h : Heap) (instAddr : InstanceAddress) : Option (List Byte) :=
  (Serialize h instAddr).map fun p => p.1.read p.2

/-- A memory with one array, holding the bytes `0x00 0x01 0x02`. -/
def heap012 : Heap := { arrays := fun i => if i = 0 then [0, 1, 2] else [], next := 1 }

end heap

open instanceaddress

/-! ## The builtins -/

theorem make_length (n : Nat) : (make n).length = n := by simp [make]

theorem make_succ (n : Nat) : make (n + 1) = 0 :: make n := by simp [make, List.replicate_succ]

theorem copy_make_of_le (n : Nat) (src : List Byte) (h : n ≤ src.length) :
    copy (make n) src = src.take n := by
  simp [copy, make, List.drop_eq_nil_iff, h]

theorem copy_make (src : List Byte) : copy (make src.length) src = src := by
  rw [copy_make_of_le _ _ (Nat.le_refl _), List.take_length]

theorem bytes.Compare_eq_zero_iff (a b : List Byte) : bytes.Compare a b = 0 ↔ a = b := by
  induction a generalizing b with
  | nil => cases b <;> simp [bytes.Compare]
  | cons x xs ih =>
    cases b with
    | nil => simp [bytes.Compare]
    | cons y ys =>
      simp only [bytes.Compare, List.cons.injEq]
      by_cases h1 : x < y
      · simp [h1, Fin.ne_of_lt h1]
      · by_cases h2 : y < x
        · simp [h1, h2, Fin.ne_of_gt h2]
        · have hxy : x = y := Fin.le_antisymm (Fin.not_lt.mp h2) (Fin.not_lt.mp h1)
          simp [h1, hxy, ih]

/-! ## encoding/hex -/

namespace hex

theorem fromHexChar_hi (v : Byte) :
    fromHexChar (hextable.getD (v.val >>> 4) 0) = some (v.val >>> 4) := by
  revert v; decide

theorem fromHexChar_lo (v : Byte) :
    fromHexChar (hextable.getD (v.val &&& 0x0f) 0) = some (v.val &&& 0x0f) := by
  revert v; decide

theorem toByte_hi_lo (v : Byte) : toByte ((v.val >>> 4) <<< 4 ||| (v.val &&& 0x0f)) = v := by
  revert v; decide

theorem EncodeToString_length (l : List Byte) : (EncodeToString l).length = 2 * l.length := by
  induction l with
  | nil => rfl
  | cons v rest ih => simp [EncodeToString, ih]; omega

theorem EncodeToString_append (l m : List Byte) :
    EncodeToString (l ++ m) = EncodeToString l ++ EncodeToString m := by
  induction l with
  | nil => rfl
  | cons v rest ih => simp [EncodeToString, ih]

/-- Decoding what was encoded, followed by any further text, gives the bytes back in
front of the decoding of the rest. -/
theorem DecodeString_EncodeToString_append (l : List Byte) (t : GoString) :
    DecodeString (EncodeToString l ++ t) =
      match DecodeString t with
      | .error e => .error e
      | .ok bs => .ok (l ++ bs) := by
  induction l with
  | nil => simp [EncodeToString]; cases DecodeString t <;> rfl
  | cons v rest ih =>
    have hsplit : EncodeToString (v :: rest) ++ t =
        hextable.getD (v.val >>> 4) 0 :: hextable.getD (v.val &&& 0x0f) 0 ::
          (EncodeToString rest ++ t) := rfl
    rw [hsplit, DecodeString, fromHexChar_hi, fromHexChar_lo]
    simp only [toByte_hi_lo]
    rw [ih]
    cases DecodeString t <;> rfl

theorem DecodeString_EncodeToString (l : List Byte) : DecodeString (EncodeToString l) = .ok l := by
  have h := DecodeString_EncodeToString_append l []
  simpa [DecodeString] using h

end hex

/-! ## crypto/sha256 and the checksum -/

theorem sha256.Sum256_length (data : List Byte) : (sha256.Sum256 data).length = 32 := by
  simp [sha256.Sum256, sha256.digest, sha256.be]

theorem instanceaddress.CheckSum_length (b : List Byte) : (CheckSum b).length = 32 := by
  simp [CheckSum, sha256.Sum256_length]

/-! ## The codec: closed forms of the operations -/

namespace instanceaddress

theorem SerializeSize_of_lt (a : InstanceAddress) (h : a.cryptoAddress.length + 1 < 2 ^ 32) :
    SerializeSize a = 1 + a.cryptoAddress.length := by
  unfold SerializeSize
  exact Nat.mod_eq_of_lt (by omega)

/-- What `Serialize` does at every length: a panic when the truncated size is zero,
otherwise the network byte and as much of the crypto-address as the size leaves room
for. -/
theorem Serialize_eq (a : InstanceAddress) :
    Serialize a = if SerializeSize a = 0 then none
      else some (a.netID :: a.cryptoAddress.take (SerializeSize a - 1)) := by
  have hle : SerializeSize a ≤ 1 + a.cryptoAddress.length := Nat.mod_le _ _
  unfold Serialize
  cases hn : SerializeSize a with
  | zero => simp [make]
  | succ n =>
    rw [make_succ]
    simp only [Nat.succ_ne_zero, if_false, Nat.add_sub_cancel]
    rw [copy_make_of_le n _ (by omega)]

theorem Serialize_of_lt (a : InstanceAddress) (h : a.cryptoAddress.length + 1 < 2 ^ 32) :
    Serialize a = some (a.netID :: a.cryptoAddress) := by
  rw [Serialize_eq, SerializeSize_of_lt a h]
  simp

theorem Deserialize_short (r : InstanceAddress) (b : List Byte) (h : b.length ≤ 1) :
    Deserialize r b = (r, some .lengthMismatch) := by
  simp [Deserialize, h]

theorem Deserialize_cons (r : InstanceAddress) (b0 : Byte) (rest : List Byte)
    (h : rest ≠ []) : Deserialize r (b0 :: rest) = (⟨b0, rest⟩, none) := by
  have hpos : 0 < rest.length := List.length_pos.mpr h
  have hlen : ¬ rest.length + 1 ≤ 1 := by omega
  simp only [Deserialize, List.length_cons, hlen, if_false, Nat.add_sub_cancel, copy_make]

/-- The closed form of `Decode` on a string that is valid hexadecimal. -/
theorem Decode_of_ok (r : InstanceAddress) (s : GoString) (b : List Byte)
    (h : hex.DecodeString s = .ok b) :
    Decode r s =
      if b.length ≤ 33 then (r, some (.wrongLength s))
      else if b.drop (b.length - 32) ≠ CheckSum (b.take (b.length - 32)) then
        (r, some (.wrongCheckSum s))
      else Deserialize r (b.take (b.length - 32)) := by
  unfold Decode
  rw [h]
  simp only [CheckSumLength, show (1 + 32 : Nat) = 33 from rfl, ne_eq,
    bytes.Compare_eq_zero_iff]
  by_cases h1 : b.length ≤ 33
  · simp [h1]
  · by_cases h2 : b.drop (b.length - 32) = CheckSum (b.take (b.length - 32))
    · simp only [h1, h2, if_false, not_true_eq_false]
      rcases hd : Deserialize r (b.take (b.length - 32)) with ⟨r1, _ | e⟩ <;> simp
    · simp [h1, h2]

theorem Decode_of_error (r : InstanceAddress) (s : GoString) (e : hex.Error)
    (h : hex.DecodeString s = .error e) : Decode r s = (r, some (.hex e)) := by
  unfold Decode
  rw [h]

/-- Decoding the text form of any byte sequence `ser`. -/
theorem Decode_text_form (r : InstanceAddress) (ser : List Byte) :
    Decode r (hex.EncodeToString ser ++ hex.EncodeToString (CheckSum ser)) =
      if ser.length ≤ 1 then
        (r, some (.wrongLength (hex.EncodeToString ser ++ hex.EncodeToString (CheckSum ser))))
      else Deserialize r ser := by
  have hdec : hex.DecodeString (hex.EncodeToString ser ++ hex.EncodeToString (CheckSum ser))
      = .ok (ser ++ CheckSum ser) := by
    rw [hex.DecodeString_EncodeToString_append, hex.DecodeString_EncodeToString]
  rw [Decode_of_ok r _ _ hdec]
  have hl : (ser ++ CheckSum ser).length - 32 = ser.length := by
    simp [CheckSum_length]
  rw [hl, List.take_left, List.drop_left]
  simp only [List.length_append, CheckSum_length, ne_eq, not_true_eq_false, if_false]
  by_cases h : ser.length ≤ 1
  · have h33 : ser.length + 32 ≤ 33 := by omega
    simp [h, h33]
  · have h33 : ¬ ser.length + 32 ≤ 33 := by omega
    simp [h, h33]

end instanceaddress

namespace instanceaddress

theorem Deserialize_eq (r : InstanceAddress) (b : List Byte) :
    Deserialize r b =
      if b.length ≤ 1 then (r, some .lengthMismatch) else (⟨b.headD 0, b.drop 1⟩, none) := by
  by_cases h : b.length ≤ 1
  · rw [Deserialize_short r b h, if_pos h]
  · rw [if_neg h]
    cases b with
    | nil => simp at h
    | cons b0 rest =>
      have hne : rest ≠ [] := by
        intro hnil
        simp [hnil] at h
      rw [Deserialize_cons r b0 rest hne]
      simp

theorem SerializeSize_replicate (n x : Byte) (k : Nat) :
    SerializeSize ⟨n, List.replicate k x⟩ = (1 + k) % 2 ^ 32 := by
  simp only [SerializeSize, List.length_replicate]

/-- At `2^32 - 1` crypto-address bytes the size wraps to zero and `Serialize` panics. -/
theorem Serialize_replicate_panics (n x : Byte) :
    Serialize ⟨n, List.replicate 4294967295 x⟩ = none := by
  rw [Serialize_eq, SerializeSize_replicate]
  rfl

/-- At `2^32` crypto-address bytes the size wraps to one and only the network byte is
written. -/
theorem Serialize_replicate_truncates (n x : Byte) :
    Serialize ⟨n, List.replicate 4294967296 x⟩ = some [n] := by
  rw [Serialize_eq, SerializeSize_replicate]
  have h : (1 + 4294967296) % 2 ^ 32 = 1 := by decide
  rw [h]
  simp only [Nat.one_ne_zero, if_false, Nat.sub_self, List.take_zero]

theorem Encode_of_Serialize (a : InstanceAddress) (ser : List Byte)
    (h : Serialize a = some ser) :
    Encode a = some (hex.EncodeToString ser ++ hex.EncodeToString (CheckSum ser)) := by
  simp only [Encode, h]

theorem String_of_Serialize (a : InstanceAddress) (ser : List Byte)
    (h : Serialize a = some ser) : String a = some (hex.EncodeToString ser) := by
  simp only [String, h]

theorem Encode_of_panic (a : InstanceAddress) (h : Serialize a = none) : Encode a = none := by
  simp only [Encode, h]

theorem String_of_panic (a : InstanceAddress) (h : Serialize a = none) : String a = none := by
  simp only [String, h]

theorem replicate_ne_nil (k : Nat) (x : Byte) (h : 0 < k) : List.replicate k x ≠ [] := by
  intro hnil
  have hl := congrArg List.length hnil
  rw [List.length_replicate] at hl
  simp only [List.length_nil] at hl
  omega

end instanceaddress

/-! ## Round trips -/

/-- C1 (as amended): for every address with a non-empty crypto-address of at most
`2^32 - 2` bytes and every receiver `r`, `Encode` returns a string, `Decode` of that
string into `r` returns no error, and `r` then equals the address, field for field. -/
theorem Decode_Encode_roundtrip (a r : InstanceAddress) (hne : a.cryptoAddress ≠ [])
    (hlt : a.cryptoAddress.length + 1 < 2 ^ 32) :
    ∃ s, Encode a = some s ∧ Decode r s = (a, none) ∧
      (Decode r s).1.netID = a.netID ∧ (Decode r s).1.cryptoAddress = a.cryptoAddress := by
  have hser := Serialize_of_lt a hlt
  refine ⟨hex.EncodeToString (a.netID :: a.cryptoAddress) ++
    hex.EncodeToString (CheckSum (a.netID :: a.cryptoAddress)), ?_, ?_⟩
  · exact Encode_of_Serialize a _ hser
  · have hpos : 0 < a.cryptoAddress.length := List.length_pos.mpr hne
    have hlen : ¬ (a.netID :: a.cryptoAddress).length ≤ 1 := by
      simp only [List.length_cons]; omega
    rw [Decode_text_form, if_neg hlen, Deserialize_cons r _ _ hne]
    exact ⟨rfl, rfl, rfl⟩

theorem Decode_Encode_roundtrip_witness :
    ∃ s, Encode ⟨0, [1, 2, 3]⟩ = some s ∧ Decode ⟨7, [9]⟩ s = (⟨0, [1, 2, 3]⟩, none) ∧
      (Decode ⟨7, [9]⟩ s).1.netID = 0 ∧ (Decode ⟨7, [9]⟩ s).1.cryptoAddress = [1, 2, 3] :=
  Decode_Encode_roundtrip ⟨0, [1, 2, 3]⟩ ⟨7, [9]⟩ (by decide) (by decide)

/-- C1 fails as stated: with a crypto-address of `2^32` bytes (non-empty), `Encode`
returns the text form of the single byte `[netId]`, and `Decode` of that string is
refused with the wrong-length error, the receiver being left as it was. -/
theorem Decode_Encode_roundtrip_fails_large :
    (⟨0, List.replicate 4294967296 1⟩ : InstanceAddress).cryptoAddress ≠ [] ∧
    ∃ s, Encode ⟨0, List.replicate 4294967296 1⟩ = some s ∧
      Decode ⟨7, [9]⟩ s = (⟨7, [9]⟩, some (.wrongLength s)) := by
  refine ⟨replicate_ne_nil _ _ (by decide), hex.EncodeToString [0] ++
    hex.EncodeToString (CheckSum [0]), ?_, ?_⟩
  · exact Encode_of_Serialize _ _ (Serialize_replicate_truncates 0 1)
  · rw [Decode_text_form, if_pos (by simp)]

/-- C2 (as amended): for every address with a non-empty crypto-address of at most
`2^32 - 2` bytes and every receiver `r`, `Serialize` returns a byte sequence,
`Deserialize` of it into `r` returns no error, and `r` then equals the address. -/
theorem Deserialize_Serialize_roundtrip (a r : InstanceAddress) (hne : a.cryptoAddress ≠ [])
    (hlt : a.cryptoAddress.length + 1 < 2 ^ 32) :
    ∃ b, Serialize a = some b ∧ Deserialize r b = (a, none) ∧
      (Deserialize r b).1.netID = a.netID ∧
      (Deserialize r b).1.cryptoAddress = a.cryptoAddress := by
  refine ⟨a.netID :: a.cryptoAddress, Serialize_of_lt a hlt, ?_⟩
  rw [Deserialize_cons r _ _ hne]
  exact ⟨rfl, rfl, rfl⟩

theorem Deserialize_Serialize_roundtrip_witness :
    ∃ b, Serialize ⟨3, [250, 0]⟩ = some b ∧ Deserialize ⟨1, []⟩ b = (⟨3, [250, 0]⟩, none) ∧
      (Deserialize ⟨1, []⟩ b).1.netID = 3 ∧ (Deserialize ⟨1, []⟩ b).1.cryptoAddress = [250, 0] :=
  Deserialize_Serialize_roundtrip ⟨3, [250, 0]⟩ ⟨1, []⟩ (by decide) (by decide)

/-- C2 fails as stated: with a crypto-address of `2^32` bytes (non-empty), `Serialize`
returns the single byte `[netId]`, which `Deserialize` refuses. -/
theorem Deserialize_Serialize_roundtrip_fails_large :
    (⟨2, List.replicate 4294967296 5⟩ : InstanceAddress).cryptoAddress ≠ [] ∧
    Serialize ⟨2, List.replicate 4294967296 5⟩ = some [2] ∧
    Deserialize ⟨1, [8]⟩ [2] = (⟨1, [8]⟩, some .lengthMismatch) :=
  ⟨replicate_ne_nil _ _ (by decide), Serialize_replicate_truncates 2 5, by decide⟩

/-! ## Decoding -/

/-- C3: `Decode` succeeds on `s` exactly when `s` is valid hexadecimal for some bytes
`b` with more than 33 bytes whose last 32 bytes are the `CheckSum` of the bytes before
them; and then the receiver holds `netID = b[0]` and
`cryptoAddress = b[1 : len(b)-32]`. -/
theorem Decode_characterised (r : InstanceAddress) (s : GoString) :
    ((Decode r s).2 = none ↔
      ∃ b, hex.DecodeString s = .ok b ∧ 33 < b.length ∧
        CheckSum (b.take (b.length - 32)) = b.drop (b.length - 32)) ∧
    (∀ b, hex.DecodeString s = .ok b → (Decode r s).2 = none →
      b.head? = some (Decode r s).1.netID ∧
      (Decode r s).1.cryptoAddress = (b.take (b.length - 32)).drop 1) := by
  cases hd : hex.DecodeString s with
  | error e =>
    rw [Decode_of_error r s e hd]
    simp
  | ok b =>
    rw [Decode_of_ok r s b hd]
    by_cases h1 : b.length ≤ 33
    · have h1n : ¬ 33 < b.length := by omega
      simp [h1, h1n]
    · by_cases h2 : b.drop (b.length - 32) = CheckSum (b.take (b.length - 32))
      · have hlen : ¬ (b.take (b.length - 32)).length ≤ 1 := by
          rw [List.length_take]; omega
        rw [if_neg h1, if_neg (by simpa using h2), Deserialize_eq, if_neg hlen]
        have h33 : 33 < b.length := by omega
        refine ⟨by simp [h33, h2], ?_⟩
        intro b1 hb1 _
        have hbb : b1 = b := by simpa using hb1.symm
        subst hbb
        cases b1 with
        | nil => simp at h33
        | cons x xs =>
          obtain ⟨k, hk⟩ : ∃ k, (x :: xs).length - 32 = k + 1 :=
            ⟨xs.length - 32, by simp only [List.length_cons] at h33 ⊢; omega⟩
          rw [hk]
          simp
      · have h2s : ¬ CheckSum (b.take (b.length - 32)) = b.drop (b.length - 32) :=
          fun h => h2 h.symm
        simp [h1, h2, h2s]

/-- C5: whenever `Decode` returns an error, the receiver is exactly what it was before
the call, in both fields. -/
theorem Decode_fails_closed (r : InstanceAddress) (s : GoString)
    (h : (Decode r s).2 ≠ none) :
    (Decode r s).1 = r ∧ (Decode r s).1.netID = r.netID ∧
      (Decode r s).1.cryptoAddress = r.cryptoAddress := by
  have key : (Decode r s).1 = r := by
    cases hd : hex.DecodeString s with
    | error e => rw [Decode_of_error r s e hd]
    | ok b =>
      rw [Decode_of_ok r s b hd] at h ⊢
      by_cases h1 : b.length ≤ 33
      · rw [if_pos h1]
      · rw [if_neg h1] at h ⊢
        by_cases h2 : b.drop (b.length - 32) ≠ CheckSum (b.take (b.length - 32))
        · rw [if_pos h2]
        · rw [if_neg h2] at h ⊢
          rw [Deserialize_eq] at h ⊢
          by_cases h3 : (b.take (b.length - 32)).length ≤ 1
          · rw [if_pos h3]
          · rw [if_neg h3] at h
            exact absurd rfl h
  exact ⟨key, by rw [key], by rw [key]⟩

theorem Decode_fails_closed_witness :
    (Decode ⟨7, [9]⟩ [122, 122]).2 ≠ none ∧
    ((Decode ⟨7, [9]⟩ [122, 122]).1 = ⟨7, [9]⟩ ∧ (Decode ⟨7, [9]⟩ [122, 122]).1.netID = 7 ∧
      (Decode ⟨7, [9]⟩ [122, 122]).1.cryptoAddress = [9]) :=
  ⟨by decide, Decode_fails_closed ⟨7, [9]⟩ [122, 122] (by decide)⟩

/-! ## The binary form -/

/-- C6: `Deserialize` fails exactly on inputs of length at most 1, with the
length error and the receiver unchanged; on every longer input it succeeds with
`netID = b[0]` and `cryptoAddress = b[1:]`, whatever the receiver held before. -/
theorem Deserialize_boundary (r : InstanceAddress) (b : List Byte) :
    ((Deserialize r b).2 ≠ none ↔ b.length ≤ 1) ∧
    (b.length ≤ 1 → Deserialize r b = (r, some .lengthMismatch)) ∧
    (1 < b.length →
      (Deserialize r b).2 = none ∧ b.head? = some (Deserialize r b).1.netID ∧
      (Deserialize r b).1.cryptoAddress = b.drop 1 ∧
      ∀ r1 : InstanceAddress, Deserialize r1 b = Deserialize r b) := by
  refine ⟨?_, fun h => Deserialize_short r b h, fun hp => ?_⟩
  · rw [Deserialize_eq]
    by_cases h : b.length ≤ 1
    · simp [h]
    · simp [h]
  · have h : ¬ b.length ≤ 1 := by omega
    rw [Deserialize_eq, if_neg h]
    refine ⟨rfl, ?_, rfl, fun r1 => ?_⟩
    · cases b with
      | nil => simp at hp
      | cons x xs => simp
    · rw [Deserialize_eq, if_neg h]

/-- C7 (as amended): for every address whose crypto-address has at most `2^32 - 2`
bytes, `Serialize` returns, without failure, the byte `netId` followed by the
crypto-address, of length exactly `1 + len(cryptoAddress)`. -/
theorem Serialize_concat (a : InstanceAddress) (hlt : a.cryptoAddress.length + 1 < 2 ^ 32) :
    ∃ b, Serialize a = some b ∧ b = [a.netID] ++ a.cryptoAddress ∧
      b.length = 1 + a.cryptoAddress.length := by
  refine ⟨a.netID :: a.cryptoAddress, Serialize_of_lt a hlt, rfl, ?_⟩
  simp only [List.length_cons]; omega

theorem Serialize_concat_witness :
    ∃ b, Serialize ⟨0, [1, 2, 3]⟩ = some b ∧ b = [0] ++ [1, 2, 3] ∧ b.length = 1 + 3 :=
  Serialize_concat ⟨0, [1, 2, 3]⟩ (by decide)

/-- C7 fails as stated: with a crypto-address of `2^32 - 1` bytes `Serialize` panics on
`b[0]`, the slice made having length zero. -/
theorem Serialize_fails_large :
    (⟨0, List.replicate 4294967295 7⟩ : InstanceAddress).cryptoAddress.length = 4294967295 ∧
    Serialize ⟨0, List.replicate 4294967295 7⟩ = none :=
  ⟨List.length_replicate _ _, Serialize_replicate_panics 0 7⟩

/-- C8 (as amended): for every address whose crypto-address has at most `2^32 - 2`
bytes, `SerializeSize` returns `1 + len(cryptoAddress)`. -/
theorem SerializeSize_exact (a : InstanceAddress) (hlt : a.cryptoAddress.length + 1 < 2 ^ 32) :
    SerializeSize a = 1 + a.cryptoAddress.length :=
  SerializeSize_of_lt a hlt

theorem SerializeSize_exact_witness :
    SerializeSize ⟨0, [1, 2, 3]⟩ = 1 + ([1, 2, 3] : List Byte).length :=
  SerializeSize_exact ⟨0, [1, 2, 3]⟩ (by decide)

/-- C8 fails as stated: with a crypto-address of `2^32 - 1` bytes the sum
`1 + len(cryptoAddress)` is `2^32`, and the conversion to `uint32` returns 0. -/
theorem SerializeSize_wraps :
    (⟨0, List.replicate 4294967295 7⟩ : InstanceAddress).cryptoAddress.length = 2 ^ 32 - 1 ∧
    SerializeSize ⟨0, List.replicate 4294967295 7⟩ = 0 :=
  ⟨List.length_replicate _ _, (SerializeSize_replicate 0 7 4294967295).trans (by norm_num)⟩

/-! ## Tampering with the text form -/

namespace hex

theorem fromHexChar_lt (c : Byte) (d : Nat) (h : fromHexChar c = some d) : d < 16 := by
  unfold fromHexChar at h
  split at h
  · simp only [Option.some.injEq] at h; omega
  · split at h
    · simp only [Option.some.injEq] at h; omega
    · split at h
      · simp only [Option.some.injEq] at h; omega
      · simp at h

theorem toByte_hi_ne_aux : ∀ (v : Byte) (d : Fin 16), d.val ≠ v.val >>> 4 →
    toByte (d.val <<< 4 ||| (v.val &&& 0x0f)) ≠ v := by decide

theorem toByte_lo_ne_aux : ∀ (v : Byte) (d : Fin 16), d.val ≠ v.val &&& 0x0f →
    toByte ((v.val >>> 4) <<< 4 ||| d.val) ≠ v := by decide

theorem toByte_hi_ne (v : Byte) (d : Nat) (hd : d < 16) (h : d ≠ v.val >>> 4) :
    toByte (d <<< 4 ||| (v.val &&& 0x0f)) ≠ v :=
  toByte_hi_ne_aux v ⟨d, hd⟩ h

theorem toByte_lo_ne (v : Byte) (d : Nat) (hd : d < 16) (h : d ≠ v.val &&& 0x0f) :
    toByte ((v.val >>> 4) <<< 4 ||| d) ≠ v :=
  toByte_lo_ne_aux v ⟨d, hd⟩ h

end hex

namespace hex

/-- Replacing one character of an encoding by a digit of another value gives a string
that still decodes, to as many bytes, but not to the same bytes. -/
theorem DecodeString_set (l : List Byte) (j : Nat) (c : Byte) (d : Nat)
    (hj : j < 2 * l.length) (hc : fromHexChar c = some d)
    (hne : fromHexChar ((EncodeToString l).getD j 0) ≠ some d) :
    ∃ m, DecodeString ((EncodeToString l).set j c) = .ok m ∧ m.length = l.length ∧ m ≠ l := by
  have hd : d < 16 := fromHexChar_lt c d hc
  induction l generalizing j with
  | nil => simp at hj
  | cons v rest ih =>
    match j with
    | 0 =>
      have hv : d ≠ v.val >>> 4 := by
        intro hEq
        apply hne
        simp only [EncodeToString, List.getD_cons_zero, fromHexChar_hi, hEq]
      refine ⟨toByte (d <<< 4 ||| (v.val &&& 0x0f)) :: rest, ?_, by simp, ?_⟩
      · simp only [EncodeToString, List.set_cons_zero, DecodeString, hc, fromHexChar_lo,
          DecodeString_EncodeToString]
      · intro hEq
        exact toByte_hi_ne v d hd hv (List.cons.inj hEq).1
    | 1 =>
      have hv : d ≠ v.val &&& 0x0f := by
        intro hEq
        apply hne
        simp only [EncodeToString, List.getD_cons_succ, List.getD_cons_zero, fromHexChar_lo, hEq]
      refine ⟨toByte ((v.val >>> 4) <<< 4 ||| d) :: rest, ?_, by simp, ?_⟩
      · simp only [EncodeToString, List.set_cons_succ, List.set_cons_zero, DecodeString, hc,
          fromHexChar_hi, DecodeString_EncodeToString]
      · intro hEq
        exact toByte_lo_ne v d hd hv (List.cons.inj hEq).1
    | k + 2 =>
      have hk : k < 2 * rest.length := by
        simp only [List.length_cons] at hj; omega
      have hne1 : fromHexChar ((EncodeToString rest).getD k 0) ≠ some d := by
        simpa only [EncodeToString, List.getD_cons_succ] using hne
      obtain ⟨m, hm, hlen, hmne⟩ := ih k hk hne1
      refine ⟨v :: m, ?_, by simp [hlen], ?_⟩
      · simp only [EncodeToString, List.set_cons_succ, DecodeString, fromHexChar_hi,
          fromHexChar_lo, hm, toByte_hi_lo]
      · intro hEq
        exact hmne (List.cons.inj hEq).2

end hex

/-- C4 (as amended): for every address with a non-empty crypto-address of at most
`2^32 - 2` bytes, every position `i` within the last 64 characters of its encoding and
every hexadecimal character `c` whose digit value differs from that of the character at
position `i`, `Decode` of the string with position `i` replaced by `c` fails with the
checksum-mismatch error and leaves the receiver as it was. -/
theorem Decode_detects_tamper (a r : InstanceAddress) (hne : a.cryptoAddress ≠ [])
    (hlt : a.cryptoAddress.length + 1 < 2 ^ 32) :
    ∃ s, Encode a = some s ∧
      ∀ (i : Nat) (c : Byte), s.length - 64 ≤ i → i < s.length →
        (hex.fromHexChar c).isSome = true →
        hex.fromHexChar c ≠ hex.fromHexChar (s.getD i 0) →
        Decode r (s.set i c) = (r, some (.wrongCheckSum (s.set i c))) := by
  have hser := Serialize_of_lt a hlt
  refine ⟨_, Encode_of_Serialize a _ hser, ?_⟩
  intro i c hi1 hi2 hc hdiff
  generalize hserdef : a.netID :: a.cryptoAddress = ser at *
  have hserlen : 2 ≤ ser.length := by
    have hpos : 0 < a.cryptoAddress.length := List.length_pos.mpr hne
    rw [← hserdef, List.length_cons]; omega
  have hcs : (CheckSum ser).length = 32 := CheckSum_length ser
  have hl1 : (hex.EncodeToString ser).length = 2 * ser.length := hex.EncodeToString_length ser
  have hl2 : (hex.EncodeToString (CheckSum ser)).length = 64 := by
    rw [hex.EncodeToString_length, hcs]
  rw [List.length_append, hl1, hl2] at hi1 hi2
  have hge : (hex.EncodeToString ser).length ≤ i := by omega
  obtain ⟨d, hd⟩ := Option.isSome_iff_exists.mp hc
  have hget : (hex.EncodeToString ser ++ hex.EncodeToString (CheckSum ser)).getD i 0 =
      (hex.EncodeToString (CheckSum ser)).getD (i - (hex.EncodeToString ser).length) 0 :=
    List.getD_append_right _ _ _ _ hge
  have hset : (hex.EncodeToString ser ++ hex.EncodeToString (CheckSum ser)).set i c =
      hex.EncodeToString ser ++
        (hex.EncodeToString (CheckSum ser)).set (i - (hex.EncodeToString ser).length) c := by
    rw [List.set_append, if_neg (by omega)]
  rw [hget, hd] at hdiff
  obtain ⟨m, hm, hmlen, hmne⟩ := hex.DecodeString_set (CheckSum ser)
    (i - (hex.EncodeToString ser).length) c d (by omega) hd (fun h => hdiff h.symm)
  have hdec : hex.DecodeString
      ((hex.EncodeToString ser ++ hex.EncodeToString (CheckSum ser)).set i c) =
      .ok (ser ++ m) := by
    rw [hset, hex.DecodeString_EncodeToString_append, hm]
  rw [Decode_of_ok r _ _ hdec]
  have hlen : (ser ++ m).length - 32 = ser.length := by
    rw [List.length_append, hmlen, hcs]; omega
  have h33 : ¬ (ser ++ m).length ≤ 33 := by
    rw [List.length_append, hmlen, hcs]; omega
  rw [hlen, List.take_left, List.drop_left, if_neg h33, if_pos hmne]

theorem Decode_detects_tamper_witness :
    ∃ s, Encode ⟨0, [1]⟩ = some s ∧ s.length - 64 ≤ 9 ∧ 9 < s.length ∧ s.getD 9 0 = 101 ∧
      hex.fromHexChar 70 = some 15 ∧ hex.fromHexChar 101 = some 14 ∧
      Decode ⟨7, [9]⟩ (s.set 9 70) = (⟨7, [9]⟩, some (.wrongCheckSum (s.set 9 70))) := by
  obtain ⟨s, hs, h⟩ := Decode_detects_tamper ⟨0, [1]⟩ ⟨7, [9]⟩ (by decide) (by decide)
  have hval : Encode ⟨0, [1]⟩ = some text0001 := by decide
  have hs1 : s = text0001 := Option.some.inj (hs.symm.trans hval)
  subst hs1
  exact ⟨_, hval, by decide, by decide, by decide, by decide, by decide,
    h 9 70 (by decide) (by decide) (by decide) (by decide)⟩

/-- C4 fails as stated. (1) The address `(0x00, [0x01])` encodes to 68 characters whose
character 9, inside the checksum suffix, is `e`; replacing it by the different
hexadecimal character `E` gives a string that `Decode` accepts, as the same address.
(2) With a crypto-address of `2^32` bytes the encoding is the 66 characters of `[netId]`
and its checksum; replacing character 2, the first of the suffix, `1`, by `2` makes
`Decode` fail with the wrong-length error, not the checksum error. -/
theorem Decode_tamper_undetected :
    (Encode ⟨0, [1]⟩ = some text0001 ∧ text0001.length - 64 ≤ 9 ∧ 9 < text0001.length ∧
      text0001.getD 9 0 = 101 ∧ (hex.fromHexChar 69).isSome = true ∧ (69 : Byte) ≠ 101 ∧
      Decode ⟨7, [9]⟩ (text0001.set 9 69) = (⟨0, [1]⟩, none)) ∧
    ((⟨0, List.replicate 4294967296 1⟩ : InstanceAddress).cryptoAddress ≠ [] ∧
      Encode ⟨0, List.replicate 4294967296 1⟩ = some text00 ∧
      text00.length - 64 ≤ 2 ∧ 2 < text00.length ∧ text00.getD 2 0 = 49 ∧
      hex.fromHexChar 50 = some 2 ∧ hex.fromHexChar 49 = some 1 ∧
      Decode ⟨7, [9]⟩ (text00.set 2 50) = (⟨7, [9]⟩, some (.wrongLength (text00.set 2 50)))) := by
  have henc : hex.EncodeToString [0] ++ hex.EncodeToString (CheckSum [0]) = text00 := by decide
  refine ⟨⟨by decide, by decide, by decide, by decide, by decide, by decide, by decide⟩,
    replicate_ne_nil _ _ (by decide), ?_, by decide, by decide, by decide, by decide, by decide,
    by decide⟩
  rw [← henc]
  exact Encode_of_Serialize _ _ (Serialize_replicate_truncates 0 1)

/-! ## The two text forms -/

namespace hex

theorem isLowerHexChar_hi (v : Byte) : isLowerHexChar (hextable.getD (v.val >>> 4) 0) = true := by
  revert v; decide

theorem isLowerHexChar_lo (v : Byte) :
    isLowerHexChar (hextable.getD (v.val &&& 0x0f) 0) = true := by
  revert v; decide

theorem EncodeToString_lower (l : List Byte) :
    ∀ c ∈ EncodeToString l, isLowerHexChar c = true := by
  induction l with
  | nil => simp [EncodeToString]
  | cons v rest ih =>
    intro c hc
    simp only [EncodeToString, List.mem_cons] at hc
    rcases hc with h | h | h
    · rw [h]; exact isLowerHexChar_hi v
    · rw [h]; exact isLowerHexChar_lo v
    · exact ih c h

end hex

/-- C9 (as amended): for every address whose crypto-address has at most `2^32 - 2`
bytes, `Encode` returns the lower-case hexadecimal of `Serialize()` immediately
followed by that of `CheckSum(Serialize())`; its length is
`2 * (1 + len(cryptoAddress)) + 64`, its first `2 * (1 + len(cryptoAddress))` characters
are the hexadecimal of `netId` and the crypto-address, and every character is one of
`0-9`, `a-f`. -/
theorem Encode_format (a : InstanceAddress) (hlt : a.cryptoAddress.length + 1 < 2 ^ 32) :
    ∃ ser e, Serialize a = some ser ∧ Encode a = some e ∧
      e = hex.EncodeToString ser ++ hex.EncodeToString (CheckSum ser) ∧
      e.length = 2 * (1 + a.cryptoAddress.length) + 64 ∧
      e.take (2 * (1 + a.cryptoAddress.length)) =
        hex.EncodeToString (a.netID :: a.cryptoAddress) ∧
      ∀ c ∈ e, hex.isLowerHexChar c = true := by
  have hser := Serialize_of_lt a hlt
  have hl : (hex.EncodeToString (a.netID :: a.cryptoAddress)).length =
      2 * (1 + a.cryptoAddress.length) := by
    rw [hex.EncodeToString_length, List.length_cons]; omega
  refine ⟨_, _, hser, Encode_of_Serialize a _ hser, rfl, ?_, ?_, ?_⟩
  · rw [List.length_append, hl, hex.EncodeToString_length, CheckSum_length]
  · rw [← hl, List.take_left]
  · intro c hc
    rcases List.mem_append.mp hc with h | h
    · exact hex.EncodeToString_lower _ c h
    · exact hex.EncodeToString_lower _ c h

theorem Encode_format_witness :
    (Encode ⟨0, [1, 2, 3]⟩ = some text00010203 ∧ text00010203.length = 72) ∧
    ∃ ser e, Serialize ⟨0, [1, 2, 3]⟩ = some ser ∧ Encode ⟨0, [1, 2, 3]⟩ = some e ∧
      e = hex.EncodeToString ser ++ hex.EncodeToString (CheckSum ser) ∧
      e.length = 2 * (1 + 3) + 64 ∧
      e.take (2 * (1 + 3)) = [48, 48, 48, 49, 48, 50, 48, 51] ∧
      ∀ c ∈ e, hex.isLowerHexChar c = true :=
  ⟨⟨by decide, by decide⟩, Encode_format ⟨0, [1, 2, 3]⟩ (by decide)⟩

/-- C9 fails as stated: with a crypto-address of `2^32` bytes `Encode` returns 66
characters, not `2 * (1 + 2^32) + 64`. -/
theorem Encode_length_fails_large :
    (⟨0, List.replicate 4294967296 1⟩ : InstanceAddress).cryptoAddress.length = 2 ^ 32 ∧
    Encode ⟨0, List.replicate 4294967296 1⟩ = some text00 ∧ text00.length = 66 ∧
    66 ≠ 2 * (1 + 2 ^ 32) + 64 := by
  have henc : hex.EncodeToString [0] ++ hex.EncodeToString (CheckSum [0]) = text00 := by decide
  refine ⟨List.length_replicate _ _, ?_, by decide, by norm_num⟩
  rw [← henc]
  exact Encode_of_Serialize _ _ (Serialize_replicate_truncates 0 1)

/-- C10 (as amended): for every address on which `Serialize` does not panic (the
size `uint32(1 + len(cryptoAddress))` is not zero), `String` returns the lower-case
hexadecimal of `Serialize()`, `Encode` returns that same string followed by exactly 64
further lower-case hexadecimal characters, `String()` is `Encode()` without its last 64
characters, and the two strings differ. -/
theorem String_unchecksummed (a : InstanceAddress) (h : SerializeSize a ≠ 0) :
    ∃ ser s e, Serialize a = some ser ∧ String a = some s ∧ Encode a = some e ∧
      s = hex.EncodeToString ser ∧
      (∃ t, e = s ++ t ∧ t.length = 64 ∧ ∀ c ∈ t, hex.isLowerHexChar c = true) ∧
      s = e.take (e.length - 64) ∧ s ≠ e := by
  have hser : Serialize a = some (a.netID :: a.cryptoAddress.take (SerializeSize a - 1)) := by
    rw [Serialize_eq, if_neg h]
  generalize a.netID :: a.cryptoAddress.take (SerializeSize a - 1) = ser at hser
  have hl : (hex.EncodeToString (CheckSum ser)).length = 64 := by
    rw [hex.EncodeToString_length, CheckSum_length]
  refine ⟨ser, _, _, hser, String_of_Serialize a _ hser, Encode_of_Serialize a _ hser, rfl,
    ⟨_, rfl, hl, hex.EncodeToString_lower _⟩, ?_, ?_⟩
  · rw [List.length_append, hl, Nat.add_sub_cancel, List.take_left]
  · intro hEq
    have hlen := congrArg List.length hEq
    rw [List.length_append, hl] at hlen
    omega

theorem String_unchecksummed_witness :
    ∃ ser s e, Serialize ⟨0, [1, 2, 3]⟩ = some ser ∧ String ⟨0, [1, 2, 3]⟩ = some s ∧
      Encode ⟨0, [1, 2, 3]⟩ = some e ∧ s = hex.EncodeToString ser ∧
      (∃ t, e = s ++ t ∧ t.length = 64 ∧ ∀ c ∈ t, hex.isLowerHexChar c = true) ∧
      s = e.take (e.length - 64) ∧ s ≠ e :=
  String_unchecksummed ⟨0, [1, 2, 3]⟩ (by decide)

/-- C10 fails as stated: with a crypto-address of `2^32 - 1` bytes neither `String` nor
`Encode` returns a string (both panic inside `Serialize`), so the two do not differ. -/
theorem String_Encode_fail_large :
    String ⟨0, List.replicate 4294967295 7⟩ = none ∧
    Encode ⟨0, List.replicate 4294967295 7⟩ = none ∧
    String ⟨0, List.replicate 4294967295 7⟩ = Encode ⟨0, List.replicate 4294967295 7⟩ := by
  have hs := String_of_panic _ (Serialize_replicate_panics 0 7)
  have he := Encode_of_panic _ (Serialize_replicate_panics 0 7)
  exact ⟨hs, he, hs.trans he.symm⟩

/-! ## The checksum -/

/-- C11: for every byte sequence `b`, the empty one included, `CheckSum b` is SHA-256
applied to the 32-byte SHA-256 digest of `b`, and its length is `CheckSumLength() = 32`;
so splitting `b ++ CheckSum b` at `CheckSumLength` bytes from the end gives back `b` and
`CheckSum b`. For the empty input the two digests are the known values. -/
theorem CheckSum_construction (b : List Byte) :
    CheckSum b = sha256.Sum256 (sha256.Sum256 b) ∧ (sha256.Sum256 b).length = 32 ∧
    (CheckSum b).length = CheckSumLength ∧ CheckSumLength = 32 ∧
    (b ++ CheckSum b).take ((b ++ CheckSum b).length - CheckSumLength) = b ∧
    (b ++ CheckSum b).drop ((b ++ CheckSum b).length - CheckSumLength) = CheckSum b ∧
    sha256.Sum256 [] = sha256Empty ∧ CheckSum [] = sha256dEmpty := by
  have hl : (b ++ CheckSum b).length - CheckSumLength = b.length := by
    simp [CheckSum_length, CheckSumLength]
  refine ⟨rfl, sha256.Sum256_length b, CheckSum_length b, rfl, ?_, ?_, by decide, by decide⟩
  · rw [hl, List.take_left]
  · rw [hl, List.drop_left]

/-! ## Rejection of invalid hexadecimal -/

namespace hex

theorem fromHexChar_eq_none_iff (c : Byte) : fromHexChar c = none ↔ isHexChar c = false := by
  revert c; decide

theorem DecodeString_error_of_invalid : ∀ (s : GoString),
    (s.length % 2 = 1 ∨ ∃ c ∈ s, fromHexChar c = none) → ∃ e, DecodeString s = .error e
  | [], h => by simp at h
  | [p], _ => by
    unfold DecodeString
    cases fromHexChar p <;> simp
  | p :: q :: rest, h => by
    unfold DecodeString
    cases hp : fromHexChar p with
    | none => exact ⟨_, rfl⟩
    | some a =>
      cases hq : fromHexChar q with
      | none => exact ⟨_, rfl⟩
      | some b =>
        have hrest : rest.length % 2 = 1 ∨ ∃ c ∈ rest, fromHexChar c = none := by
          rcases h with h | ⟨c, hc, hnone⟩
          · left
            simp only [List.length_cons] at h
            omega
          · right
            simp only [List.mem_cons] at hc
            rcases hc with hc | hc | hc
            · rw [hc, hp] at hnone; cases hnone
            · rw [hc, hq] at hnone; cases hnone
            · exact ⟨c, hc, hnone⟩
        obtain ⟨e, he⟩ := DecodeString_error_of_invalid rest hrest
        exact ⟨e, by simp only [he]⟩

theorem DecodeString_length : ∀ (s : GoString) (b : List Byte),
    DecodeString s = .ok b → s.length = 2 * b.length
  | [], b, h => by
    simp only [DecodeString, Except.ok.injEq] at h
    rw [← h]; rfl
  | [p], b, h => by
    unfold DecodeString at h
    cases hp : fromHexChar p <;> rw [hp] at h <;> cases h
  | p :: q :: rest, b, h => by
    unfold DecodeString at h
    cases hp : fromHexChar p with
    | none => rw [hp] at h; cases h
    | some a =>
      cases hq : fromHexChar q with
      | none => rw [hp, hq] at h; cases h
      | some d =>
        cases hr : DecodeString rest with
        | error e => rw [hp, hq, hr] at h; cases h
        | ok bs =>
          rw [hp, hq, hr] at h
          simp only [Except.ok.injEq] at h
          have ih := DecodeString_length rest bs hr
          rw [← h]
          simp only [List.length_cons, ih]
          omega

end hex

/-- C12: for every string `s` that has odd length or contains a character outside
`0-9`, `a-f`, `A-F`, `Decode` returns the error of `hex.DecodeString`, whatever the
length of `s`, and leaves the receiver as it was. -/
theorem Decode_rejects_invalid_hex (r : InstanceAddress) (s : GoString)
    (h : s.length % 2 = 1 ∨ ∃ c ∈ s, hex.isHexChar c = false) :
    ∃ e, hex.DecodeString s = .error e ∧ Decode r s = (r, some (.hex e)) := by
  have h1 : s.length % 2 = 1 ∨ ∃ c ∈ s, hex.fromHexChar c = none := by
    rcases h with h | ⟨c, hc, hbad⟩
    · exact Or.inl h
    · exact Or.inr ⟨c, hc, (hex.fromHexChar_eq_none_iff c).mpr hbad⟩
  obtain ⟨e, he⟩ := hex.DecodeString_error_of_invalid s h1
  exact ⟨e, he, Decode_of_error r s e he⟩

theorem Decode_rejects_invalid_hex_witness :
    Decode ⟨7, [9]⟩ textNotHex = (⟨7, [9]⟩, some (.hex (.InvalidByteError 110))) ∧
    ∃ e, hex.DecodeString textNotHex = .error e ∧
      Decode ⟨7, [9]⟩ textNotHex = (⟨7, [9]⟩, some (.hex e)) :=
  ⟨by decide, Decode_rejects_invalid_hex ⟨7, [9]⟩ textNotHex (Or.inr ⟨110, by decide, by decide⟩)⟩

/-! ## The length boundary of `Decode` and its last step -/

namespace instanceaddress

/-- What a successful `Decode` has established and stored. -/
theorem Decode_success (r : InstanceAddress) (s : GoString) (b : List Byte)
    (hd : hex.DecodeString s = .ok b) (hs : (Decode r s).2 = none) :
    33 < b.length ∧ b.drop (b.length - 32) = CheckSum (b.take (b.length - 32)) ∧
      Decode r s = (⟨b.headD 0, (b.take (b.length - 32)).drop 1⟩, none) := by
  rw [Decode_of_ok r s b hd] at hs ⊢
  by_cases h1 : b.length ≤ 33
  · rw [if_pos h1] at hs; cases hs
  · rw [if_neg h1] at hs ⊢
    by_cases h2 : b.drop (b.length - 32) ≠ CheckSum (b.take (b.length - 32))
    · rw [if_pos h2] at hs; cases hs
    · rw [if_neg h2]
      have hlen : ¬ (b.take (b.length - 32)).length ≤ 1 := by
        rw [List.length_take]; omega
      rw [Deserialize_eq, if_neg hlen]
      refine ⟨by omega, not_not.mp h2, ?_⟩
      cases b with
      | nil => simp at h1
      | cons x xs =>
        obtain ⟨k, hk⟩ : ∃ k, (x :: xs).length - 32 = k + 1 :=
          ⟨xs.length - 32, by simp only [List.length_cons] at h1 ⊢; omega⟩
        rw [hk]
        simp

/-- Every error of `Decode` comes from one of its first three checks. -/
theorem Decode_error_cases (r : InstanceAddress) (s : GoString) (e : AddrError)
    (he : (Decode r s).2 = some e) :
    (∃ x, hex.DecodeString s = .error x ∧ e = .hex x) ∨ e = .wrongLength s ∨
      e = .wrongCheckSum s := by
  cases hd : hex.DecodeString s with
  | error x =>
    rw [Decode_of_error r s x hd] at he
    exact Or.inl ⟨x, rfl, (Option.some.inj he).symm⟩
  | ok b =>
    rw [Decode_of_ok r s b hd] at he
    by_cases h1 : b.length ≤ 33
    · rw [if_pos h1] at he
      exact Or.inr (Or.inl (Option.some.inj he).symm)
    · rw [if_neg h1] at he
      by_cases h2 : b.drop (b.length - 32) ≠ CheckSum (b.take (b.length - 32))
      · rw [if_pos h2] at he
        exact Or.inr (Or.inr (Option.some.inj he).symm)
      · have hlen : ¬ (b.take (b.length - 32)).length ≤ 1 := by
          rw [List.length_take]; omega
        rw [if_neg h2, Deserialize_eq, if_neg hlen] at he
        cases he

end instanceaddress

/-- C13: a string that is valid hexadecimal for at most 33 bytes (at most 66
characters) is refused by `Decode` with the wrong-length error, the receiver unchanged,
even when its last 32 bytes are the correct checksum, as for the text form of `[netId]`
alone; every string `Decode` accepts has at least 68 characters, and the 68-character
text form of `(0x00, [0x01])` is accepted. -/
theorem Decode_length_boundary (r : InstanceAddress) (s : GoString) :
    (∀ b, hex.DecodeString s = .ok b → b.length ≤ 33 →
      Decode r s = (r, some (.wrongLength s))) ∧
    (∀ b, hex.DecodeString s = .ok b → s.length ≤ 66 →
      Decode r s = (r, some (.wrongLength s))) ∧
    (∀ n : Byte,
      hex.DecodeString (hex.EncodeToString [n] ++ hex.EncodeToString (CheckSum [n])) =
        .ok ([n] ++ CheckSum [n]) ∧
      Decode r (hex.EncodeToString [n] ++ hex.EncodeToString (CheckSum [n])) =
        (r, some (.wrongLength (hex.EncodeToString [n] ++ hex.EncodeToString (CheckSum [n]))))) ∧
    ((Decode r s).2 = none → 68 ≤ s.length) ∧
    (text0001.length = 68 ∧ Decode r text0001 = (⟨0, [1]⟩, none)) := by
  have hfirst : ∀ b, hex.DecodeString s = .ok b → b.length ≤ 33 →
      Decode r s = (r, some (.wrongLength s)) := by
    intro b hd hlen
    rw [Decode_of_ok r s b hd, if_pos hlen]
  refine ⟨hfirst, ?_, ?_, ?_, by decide, ?_⟩
  · intro b hd hlen
    have hl := hex.DecodeString_length s b hd
    exact hfirst b hd (by omega)
  · intro n
    refine ⟨?_, ?_⟩
    · rw [hex.DecodeString_EncodeToString_append, hex.DecodeString_EncodeToString]
    · rw [Decode_text_form, if_pos (by simp)]
  · intro hs
    cases hd : hex.DecodeString s with
    | error x =>
      rw [Decode_of_error r s x hd] at hs
      cases hs
    | ok b =>
      have h33 := (Decode_success r s b hd hs).1
      have hl := hex.DecodeString_length s b hd
      omega
  · have henc : hex.EncodeToString [0, 1] ++ hex.EncodeToString (CheckSum [0, 1]) = text0001 := by
      decide
    rw [← henc, Decode_text_form, if_neg (by simp), Deserialize_cons r 0 [1] (by simp)]

/-- C18: when a string has passed the hexadecimal, length and checksum checks of
`Decode`, the payload handed to `Deserialize` has at least 2 bytes, `Deserialize`
returns no error and neither does `Decode`; so `Decode` never returns the error of
`Deserialize`, and each error it returns is the hexadecimal, the wrong-length or the
checksum error. -/
theorem Decode_Deserialize_never_fails (r : InstanceAddress) (s : GoString) :
    (∀ b, hex.DecodeString s = .ok b → 1 + CheckSumLength < b.length →
      b.drop (b.length - CheckSumLength) = CheckSum (b.take (b.length - CheckSumLength)) →
      2 ≤ (b.take (b.length - CheckSumLength)).length ∧
      (Deserialize r (b.take (b.length - CheckSumLength))).2 = none ∧
      (Decode r s).2 = none) ∧
    (Decode r s).2 ≠ some .lengthMismatch ∧
    (∀ e, (Decode r s).2 = some e →
      (∃ x, hex.DecodeString s = .error x ∧ e = .hex x) ∨ e = .wrongLength s ∨
        e = .wrongCheckSum s) := by
  refine ⟨?_, ?_, fun e he => Decode_error_cases r s e he⟩
  · intro b hd hlen hsum
    simp only [CheckSumLength] at hlen hsum ⊢
    have hlen2 : ¬ (b.take (b.length - 32)).length ≤ 1 := by
      rw [List.length_take]; omega
    have h33 : ¬ b.length ≤ 33 := by omega
    refine ⟨by omega, ?_, ?_⟩
    · rw [Deserialize_eq, if_neg hlen2]
    · rw [Decode_of_ok r s b hd, if_neg h33, if_neg (by simpa using hsum), Deserialize_eq,
        if_neg hlen2]
  · intro he
    rcases Decode_error_cases r s _ he with ⟨x, _, hx⟩ | hx | hx <;> cases hx

/-! ## The network check -/

/-- C14: `IsForNet n` is true exactly when `n` is the stored network byte: for an
address made by `NewInstanceAddress m c` exactly when `n = m` (so with `m = 0x00` it is
true of `0x00` and false of `0x01`), and after a successful `Deserialize b`, or a
successful `Decode` of a string that is hexadecimal for `b`, exactly when `n = b[0]`. -/
theorem IsForNet_iff (a r : InstanceAddress) (n m : Byte) (c b : List Byte) (s : GoString) :
    (IsForNet a n = true ↔ n = a.netID) ∧
    (IsForNet (NewInstanceAddress m c) n = true ↔ n = m) ∧
    (IsForNet (NewInstanceAddress 0 c) 0 = true ∧ IsForNet (NewInstanceAddress 0 c) 1 = false) ∧
    ((Deserialize r b).2 = none →
      (IsForNet (Deserialize r b).1 n = true ↔ b.head? = some n)) ∧
    (hex.DecodeString s = .ok b → (Decode r s).2 = none →
      (IsForNet (Decode r s).1 n = true ↔ b.head? = some n)) := by
  have hiff : ∀ x : InstanceAddress, IsForNet x n = true ↔ n = x.netID := by
    intro x
    simp only [IsForNet, beq_iff_eq]
    exact eq_comm
  refine ⟨hiff a, hiff _, ⟨rfl, rfl⟩, ?_, ?_⟩
  · intro hs
    rw [hiff]
    rw [Deserialize_eq] at hs ⊢
    by_cases hlen : b.length ≤ 1
    · rw [if_pos hlen] at hs; cases hs
    · rw [if_neg hlen]
      cases b with
      | nil => simp at hlen
      | cons x xs => simp [eq_comm]
  · intro hd hs
    rw [hiff, (Decode_success r s b hd hs).2.2]
    have h33 := (Decode_success r s b hd hs).1
    cases b with
    | nil => simp at h33
    | cons x xs => simp [eq_comm]

/-! ## The empty crypto-address -/

/-- C20: an address with an empty crypto-address serializes to the single byte
`[netId]` and encodes to 66 characters, the hexadecimal of `[netId]` followed by that of
its checksum; `Deserialize` of the one refuses it and `Decode` of the other fails with
the wrong-length error. A round trip that succeeds therefore has a non-empty
crypto-address. -/
theorem empty_cryptoAddress_not_decodable (n : Byte) (r : InstanceAddress) :
    Serialize (NewInstanceAddress n []) = some [n] ∧
    (∃ e, Encode (NewInstanceAddress n []) = some e ∧ e.length = 66 ∧
      e = hex.EncodeToString [n] ++ hex.EncodeToString (CheckSum [n]) ∧
      Decode r e = (r, some (.wrongLength e))) ∧
    Deserialize r [n] = (r, some .lengthMismatch) ∧
    (∀ a : InstanceAddress, (∃ b, Serialize a = some b ∧ Deserialize r b = (a, none)) →
      a.cryptoAddress ≠ []) ∧
    (∀ a : InstanceAddress, (∃ s, Encode a = some s ∧ Decode r s = (a, none)) →
      a.cryptoAddress ≠ []) := by
  have hser : ∀ x : Byte, Serialize ⟨x, []⟩ = some [x] := by
    intro x
    rw [Serialize_of_lt _ (by simp)]
  have hdec : ∀ x : Byte,
      Decode r (hex.EncodeToString [x] ++ hex.EncodeToString (CheckSum [x])) =
        (r, some (.wrongLength (hex.EncodeToString [x] ++ hex.EncodeToString (CheckSum [x])))) := by
    intro x
    rw [Decode_text_form, if_pos (by simp)]
  refine ⟨hser n, ⟨_, Encode_of_Serialize _ _ (hser n), ?_, rfl, hdec n⟩,
    Deserialize_short r [n] (by simp), ?_, ?_⟩
  · rw [List.length_append, hex.EncodeToString_length, hex.EncodeToString_length,
      CheckSum_length]
    rfl
  · rintro ⟨x, c⟩ ⟨b, hb, hd⟩ hnil
    simp only at hnil
    subst hnil
    rw [hser x] at hb
    rw [← Option.some.inj hb, Deserialize_short r [x] (by simp)] at hd
    cases hd
  · rintro ⟨x, c⟩ ⟨s, hs, hd⟩ hnil
    simp only at hnil
    subst hnil
    rw [Encode_of_Serialize _ _ (hser x)] at hs
    rw [← Option.some.inj hs, hdec x] at hd
    cases hd

/-! ## Which calls change the receiver -/

/-- C15 (as amended): the calls `SerializeSize`, `Serialize`, `Encode`, `String`,
`CryptoAddress` and `IsForNet` leave the receiver's `netID` and `cryptoAddress` as they
were, and so do `Deserialize` and `Decode` when they return an error; a `Deserialize` or
`Decode` that succeeds replaces both fields by the decoded `b[0]` and the decoded
crypto-address. Whenever the receiver is unchanged, so is what `Serialize` returns. -/
theorem receiver_changes_only_by_decoding (a : InstanceAddress) (c : Call) :
    ((∀ b, c ≠ .deserialize b) → (∀ s, c ≠ .decode s) → c.receiverAfter a = a) ∧
    (∀ b, c = .deserialize b →
      ((Deserialize a b).2 ≠ none → c.receiverAfter a = a) ∧
      ((Deserialize a b).2 = none →
        b.head? = some (c.receiverAfter a).netID ∧
        (c.receiverAfter a).cryptoAddress = b.drop 1)) ∧
    (∀ s, c = .decode s →
      ((Decode a s).2 ≠ none → c.receiverAfter a = a) ∧
      (∀ b, hex.DecodeString s = .ok b → (Decode a s).2 = none →
        b.head? = some (c.receiverAfter a).netID ∧
        (c.receiverAfter a).cryptoAddress = (b.take (b.length - 32)).drop 1)) ∧
    (c.receiverAfter a = a → Serialize (c.receiverAfter a) = Serialize a) := by
  refine ⟨?_, ?_, ?_, fun h => by rw [h]⟩
  · intro hd hs
    cases c with
    | deserialize b => exact absurd rfl (hd b)
    | decode s => exact absurd rfl (hs s)
    | _ => rfl
  · intro b hc
    subst hc
    simp only [Call.receiverAfter]
    rw [Deserialize_eq]
    by_cases hlen : b.length ≤ 1
    · simp [hlen]
    · rw [if_neg hlen]
      cases b with
      | nil => simp at hlen
      | cons x xs => simp
  · intro s hc
    subst hc
    simp only [Call.receiverAfter]
    refine ⟨?_, ?_⟩
    · intro herr
      cases hd : hex.DecodeString s with
      | error e => rw [Decode_of_error a s e hd]
      | ok b =>
        rcases hres : (Decode a s).2 with _ | e
        · exact absurd hres herr
        · rcases Decode_error_cases a s e hres with ⟨x, hx, _⟩ | hx | hx
          · rw [hd] at hx; cases hx
          · rw [Decode_of_ok a s b hd] at hres ⊢
            by_cases h1 : b.length ≤ 33
            · rw [if_pos h1]
            · rw [if_neg h1] at hres ⊢
              by_cases h2 : b.drop (b.length - 32) ≠ CheckSum (b.take (b.length - 32))
              · rw [if_pos h2]
              · have hlen : ¬ (b.take (b.length - 32)).length ≤ 1 := by
                  rw [List.length_take]; omega
                rw [if_neg h2, Deserialize_eq, if_neg hlen] at hres
                cases hres
          · rw [Decode_of_ok a s b hd] at hres ⊢
            by_cases h1 : b.length ≤ 33
            · rw [if_pos h1]
            · rw [if_neg h1] at hres ⊢
              by_cases h2 : b.drop (b.length - 32) ≠ CheckSum (b.take (b.length - 32))
              · rw [if_pos h2]
              · have hlen : ¬ (b.take (b.length - 32)).length ≤ 1 := by
                  rw [List.length_take]; omega
                rw [if_neg h2, Deserialize_eq, if_neg hlen] at hres
                cases hres
    · intro b hd hs
      have h33 := (Decode_success a s b hd hs).1
      rw [(Decode_success a s b hd hs).2.2]
      cases b with
      | nil => simp at h33
      | cons x xs => simp

/-- C15 fails as stated: on the constructed address `(0x00, [0x01, 0x02, 0x03])` the
call `Deserialize([0x05, 0x06])` returns no error and leaves the address
`(0x05, [0x06])`, and `Decode` of the text form of `(0x00, [0x01])` leaves that address;
`Serialize()` returns `00 01 02 03` before and `05 06`, respectively `00 01`, after. -/
theorem receiver_changed_by_Deserialize :
    Deserialize (NewInstanceAddress 0 [1, 2, 3]) [5, 6] = (⟨5, [6]⟩, none) ∧
    (Call.deserialize [5, 6]).receiverAfter (NewInstanceAddress 0 [1, 2, 3]) ≠
      NewInstanceAddress 0 [1, 2, 3] ∧
    Serialize (NewInstanceAddress 0 [1, 2, 3]) = some [0, 1, 2, 3] ∧
    Serialize ((Call.deserialize [5, 6]).receiverAfter (NewInstanceAddress 0 [1, 2, 3])) =
      some [5, 6] ∧
    Decode (NewInstanceAddress 0 [1, 2, 3]) text0001 = (⟨0, [1]⟩, none) ∧
    Serialize ((Call.decode text0001).receiverAfter (NewInstanceAddress 0 [1, 2, 3])) =
      some [0, 1] := by
  refine ⟨by decide, by decide, by decide, by decide, by decide, by decide⟩

/-! ## Collisions of the checksum -/

/-- There are more sequences of 33 bytes than values of 32 bytes, so two different
sequences of 33 bytes have the same checksum. The proof is by counting and names no
such pair. -/
theorem instanceaddress.CheckSum_collision_exists :
    ∃ b1 b2 : List Byte, b1.length = 33 ∧ b2.length = 33 ∧ b1 ≠ b2 ∧
      CheckSum b1 = CheckSum b2 := by
  let f : Mathlib.Vector Byte 33 → Mathlib.Vector Byte 32 :=
    fun v => ⟨CheckSum v.val, CheckSum_length _⟩
  have hcard : Fintype.card (Mathlib.Vector Byte 32) < Fintype.card (Mathlib.Vector Byte 33) := by
    rw [card_vector, card_vector, Fintype.card_fin]
    exact Nat.pow_lt_pow_right (by decide) (by decide)
  obtain ⟨v, w, hvw, hf⟩ := Fintype.exists_ne_map_eq_of_card_lt f hcard
  exact ⟨v.val, w.val, v.property, w.property, fun h => hvw (Subtype.ext h),
    congrArg Subtype.val hf⟩

/-! ## From text to address and back -/

namespace hex

theorem hextable_fromHexChar_aux : ∀ p : Byte,
    ((fromHexChar p).map fun a => hextable.getD a 0).getD p = lowerHex p := by decide

theorem hextable_fromHexChar (p : Byte) (a : Nat) (h : fromHexChar p = some a) :
    hextable.getD a 0 = lowerHex p := by
  have := hextable_fromHexChar_aux p
  rw [h] at this
  exact this

theorem toByte_nibbles_aux : ∀ a b : Fin 16,
    (toByte (a.val <<< 4 ||| b.val)).val >>> 4 = a.val ∧
    (toByte (a.val <<< 4 ||| b.val)).val &&& 0x0f = b.val := by decide

theorem toByte_nibbles (a b : Nat) (ha : a < 16) (hb : b < 16) :
    (toByte (a <<< 4 ||| b)).val >>> 4 = a ∧ (toByte (a <<< 4 ||| b)).val &&& 0x0f = b :=
  toByte_nibbles_aux ⟨a, ha⟩ ⟨b, hb⟩

/-- Encoding what a string decodes to gives the string back with `A-F` in lower case. -/
theorem EncodeToString_of_DecodeString : ∀ (s : GoString) (b : List Byte),
    DecodeString s = .ok b → EncodeToString b = s.map lowerHex
  | [], b, h => by
    simp only [DecodeString, Except.ok.injEq] at h
    rw [← h]; rfl
  | [p], b, h => by
    unfold DecodeString at h
    cases hp : fromHexChar p <;> rw [hp] at h <;> cases h
  | p :: q :: rest, b, h => by
    unfold DecodeString at h
    cases hp : fromHexChar p with
    | none => rw [hp] at h; cases h
    | some a =>
      cases hq : fromHexChar q with
      | none => rw [hp, hq] at h; cases h
      | some d =>
        cases hr : DecodeString rest with
        | error e => rw [hp, hq, hr] at h; cases h
        | ok bs =>
          rw [hp, hq, hr] at h
          simp only [Except.ok.injEq] at h
          have ih := EncodeToString_of_DecodeString rest bs hr
          have hn := toByte_nibbles a d (fromHexChar_lt p a hp) (fromHexChar_lt q d hq)
          rw [← h]
          simp only [EncodeToString, List.map_cons, hn.1, hn.2, ih,
            hextable_fromHexChar p a hp, hextable_fromHexChar q d hq]

theorem fromHexChar_lowerHex : ∀ c : Byte, fromHexChar (lowerHex c) = fromHexChar c := by
  decide

theorem lowerHex_of_invalid (c : Byte) (h : fromHexChar c = none) : lowerHex c = c := by
  have := hextable_fromHexChar_aux c
  rw [h] at this
  exact this.symm

/-- Decoding does not see the letter case of `A-F`. -/
theorem DecodeString_map_lowerHex : ∀ (s : GoString),
    DecodeString (s.map lowerHex) = DecodeString s
  | [] => rfl
  | [p] => by
    simp only [List.map_cons, List.map_nil, DecodeString, fromHexChar_lowerHex]
    cases hp : fromHexChar p with
    | none => simp only [lowerHex_of_invalid p hp]
    | some a => rfl
  | p :: q :: rest => by
    simp only [List.map_cons, DecodeString, fromHexChar_lowerHex,
      DecodeString_map_lowerHex rest]
    cases hp : fromHexChar p with
    | none => simp only [lowerHex_of_invalid p hp]
    | some a =>
      cases hq : fromHexChar q with
      | none => simp only [lowerHex_of_invalid q hq]
      | some d => rfl

theorem lowerHex_eq_self_iff : ∀ c : Byte, lowerHex c = c ↔ ¬ (65 ≤ c.val ∧ c.val ≤ 70) := by
  decide

theorem map_lowerHex_eq_self_iff (s : GoString) :
    s.map lowerHex = s ↔ ∀ c ∈ s, ¬ (65 ≤ c.val ∧ c.val ≤ 70) := by
  induction s with
  | nil => simp
  | cons x xs ih =>
    simp only [List.map_cons, List.cons.injEq, ih, lowerHex_eq_self_iff, List.mem_cons,
      forall_eq_or_imp]

end hex

/-- C19 (as amended): for every string `s` of fewer than `2 * (2^32 + 32)` characters on
which `Decode` succeeds, `Encode` of the decoded address returns `s` with the letters
`A-F` in lower case; it returns `s` itself exactly when `s` contains none of `A-F`; and
`Decode` gives the same result on every string that differs from `s` only in the case
of such letters. -/
theorem Encode_Decode_lower_case (r : InstanceAddress) (s : GoString)
    (hs : (Decode r s).2 = none) (hlen : s.length < 2 * (2 ^ 32 + 32)) :
    Encode (Decode r s).1 = some (s.map hex.lowerHex) ∧
    (Encode (Decode r s).1 = some s ↔ ∀ c ∈ s, ¬ (65 ≤ c.val ∧ c.val ≤ 70)) ∧
    (∀ t : GoString, t.map hex.lowerHex = s.map hex.lowerHex → Decode r t = Decode r s) := by
  cases hd : hex.DecodeString s with
  | error e =>
    rw [Decode_of_error r s e hd] at hs
    cases hs
  | ok b =>
    obtain ⟨h33, hsum, hdec⟩ := Decode_success r s b hd hs
    have hl := hex.DecodeString_length s b hd
    have henc : Encode (Decode r s).1 = some (s.map hex.lowerHex) := by
      rw [hdec]
      have htl : ((b.take (b.length - 32)).drop 1).length + 1 < 2 ^ 32 := by
        rw [List.length_drop, List.length_take]; omega
      have hser : b.headD 0 :: (b.take (b.length - 32)).drop 1 = b.take (b.length - 32) := by
        cases b with
        | nil => simp at h33
        | cons x xs =>
          obtain ⟨k, hk⟩ : ∃ k, (x :: xs).length - 32 = k + 1 :=
            ⟨xs.length - 32, by simp only [List.length_cons] at h33 ⊢; omega⟩
          rw [hk]
          simp
      rw [Encode_of_Serialize _ _ (Serialize_of_lt ⟨_, _⟩ htl)]
      simp only []
      rw [hser, ← hsum, ← hex.EncodeToString_append, List.take_append_drop,
        hex.EncodeToString_of_DecodeString s b hd]
    refine ⟨henc, ?_, ?_⟩
    · rw [henc, Option.some.injEq]
      exact hex.map_lowerHex_eq_self_iff s
    · intro t ht
      have hdt : hex.DecodeString t = .ok b := by
        rw [← hex.DecodeString_map_lowerHex t, ht, hex.DecodeString_map_lowerHex s, hd]
      have hn33 : ¬ b.length ≤ 33 := by omega
      rw [Decode_of_ok r t b hdt, Decode_of_ok r s b hd, if_neg hn33, if_neg hn33,
        if_neg (by simpa using hsum), if_neg (by simpa using hsum)]

theorem Encode_Decode_lower_case_witness :
    (text0001.set 9 69).map hex.lowerHex = text0001 ∧
    (Decode ⟨7, [9]⟩ (text0001.set 9 69)).2 = none ∧
    (Encode (Decode ⟨7, [9]⟩ (text0001.set 9 69)).1 =
        some ((text0001.set 9 69).map hex.lowerHex) ∧
      (Encode (Decode ⟨7, [9]⟩ (text0001.set 9 69)).1 = some (text0001.set 9 69) ↔
        ∀ c ∈ text0001.set 9 69, ¬ (65 ≤ c.val ∧ c.val ≤ 70)) ∧
      (∀ t : GoString, t.map hex.lowerHex = (text0001.set 9 69).map hex.lowerHex →
        Decode ⟨7, [9]⟩ t = Decode ⟨7, [9]⟩ (text0001.set 9 69))) :=
  ⟨by decide, by decide,
    Encode_Decode_lower_case ⟨7, [9]⟩ (text0001.set 9 69) (by decide) (by decide)⟩

/-- C19 fails as stated: `Decode` succeeds on the text form of the byte `0x00` followed
by `2^32 - 1` bytes `0x01`, and leaves the address `(0x00, 2^32 - 1 bytes)`; `Encode`
of that address does not return a string (it panics inside `Serialize`). -/
theorem Encode_Decode_fails_large :
    Decode ⟨7, [9]⟩ (hex.EncodeToString (0 :: List.replicate 4294967295 1) ++
      hex.EncodeToString (CheckSum (0 :: List.replicate 4294967295 1))) =
      (⟨0, List.replicate 4294967295 1⟩, none) ∧
    Encode ⟨0, List.replicate 4294967295 1⟩ = none := by
  refine ⟨?_, Encode_of_panic _ (Serialize_replicate_panics 0 1)⟩
  have hlen : ¬ (0 :: List.replicate 4294967295 (1 : Byte)).length ≤ 1 := by
    rw [List.length_cons, List.length_replicate]
    omega
  rw [Decode_text_form, if_neg hlen,
    Deserialize_cons _ _ _ (replicate_ne_nil 4294967295 1 (by omega))]

/-! ## Shared storage -/

theorem heap.SerializeBytes_eq (h : heap.Heap) (a : heap.InstanceAddress)
    (hfresh : a.cryptoAddress.arr ≠ h.next)
    (hwf : (h.read a.cryptoAddress).length = a.cryptoAddress.len) :
    heap.SerializeBytes h a = instanceaddress.Serialize ⟨a.netID, h.read a.cryptoAddress⟩ := by
  rw [instanceaddress.Serialize_eq]
  have hsz : instanceaddress.SerializeSize ⟨a.netID, h.read a.cryptoAddress⟩ =
      (1 + a.cryptoAddress.len) % 2 ^ 32 := by
    simp only [instanceaddress.SerializeSize, hwf]
  have hle : (1 + a.cryptoAddress.len) % 2 ^ 32 ≤ 1 + a.cryptoAddress.len := Nat.mod_le _ _
  rw [hsz]
  unfold heap.SerializeBytes heap.Serialize
  generalize (1 + a.cryptoAddress.len) % 2 ^ 32 = size at hle
  cases size with
  | zero => simp [heap.Heap.make, heap.Heap.write]
  | succ k =>
    simp only [heap.Heap.make, heap.Heap.write, Nat.zero_lt_succ, if_true, Option.map_some',
      Nat.succ_ne_zero, if_false, Nat.add_sub_cancel, Option.some.injEq]
    simp only [heap.Heap.copy, heap.Heap.read, heap.Slice.sliceFrom, Function.update_same,
      Function.update_noteq hfresh]
    have hsrc : (h.read a.cryptoAddress) = List.take a.cryptoAddress.len
        (List.drop a.cryptoAddress.off (h.arrays a.cryptoAddress.arr)) := rfl
    rw [← hsrc]
    generalize h.read a.cryptoAddress = src at hwf
    have hk : (List.take k src).length = k := by
      rw [List.length_take]; omega
    simp only [Nat.add_sub_cancel, Nat.zero_add, List.drop_zero, List.replicate_succ,
      List.set_cons_zero, List.take_succ_cons, List.take_zero, hk, List.cons_append,
      List.nil_append, Nat.add_comm 1 k, List.drop_succ_cons]
    have hd : List.drop k (List.replicate k (0 : Byte)) = [] := by
      rw [List.drop_eq_nil_iff, List.length_replicate]
    rw [hd, List.append_nil, List.take_of_length_le (by rw [hk])]

/-- What a successful `Deserialize` leaves in memory: a new array holding the bytes
after the first, which the receiver's slice covers; every older array is as before. -/
theorem heap.Deserialize_ok (h : heap.Heap) (a : heap.InstanceAddress) (b : heap.Slice) (hlen : 1 < b.len)
    (hb : b.arr < h.next) (hwf : b.off + b.len ≤ (h.arrays b.arr).length) :
    heap.Deserialize h a b =
      ((heap.Deserialize h a b).1, ⟨(h.read b).getD 0 0, ⟨h.next, 0, b.len - 1⟩⟩, none) ∧
    (heap.Deserialize h a b).1.next = h.next + 1 ∧
    (heap.Deserialize h a b).1.read ⟨h.next, 0, b.len - 1⟩ = (h.read b).drop 1 ∧
    ((h.read b).drop 1).length = b.len - 1 := by
  have hn : ¬ b.len ≤ 1 := by omega
  have hne : b.arr ≠ h.next := by omega
  have hl : ((h.read b).drop 1).length = b.len - 1 := by
    simp only [heap.Heap.read, List.length_drop, List.length_take]
    omega
  have hdrop : (h.read b).drop 1 =
      List.take (b.len - 1) (List.drop (b.off + 1) (h.arrays b.arr)) := by
    simp only [heap.Heap.read]
    rw [List.drop_take, List.drop_drop]
  refine ⟨?_, ?_, ?_, hl⟩
  · simp only [heap.Deserialize, if_neg hn, heap.Heap.make]
  · simp only [heap.Deserialize, if_neg hn, heap.Heap.make, heap.Heap.copy]
  · rw [hdrop] at hl ⊢
    simp only [heap.Deserialize, if_neg hn, heap.Heap.make, heap.Heap.copy, heap.Heap.read,
      heap.Slice.sliceFrom,
      Function.update_same, Function.update_noteq hne]
    generalize List.take (b.len - 1) (List.drop (b.off + 1) (h.arrays b.arr)) = d at hl ⊢
    generalize b.len - 1 = n at hl ⊢
    subst hl
    simp

theorem heap.SerializeBytes_write_other (h h3 : heap.Heap) (a : heap.InstanceAddress)
    (w : heap.Slice) (i : Nat)
    (v : Byte) (hw : w.arr ≠ a.cryptoAddress.arr) (hfresh : a.cryptoAddress.arr ≠ h.next)
    (hwf : (h.read a.cryptoAddress).length = a.cryptoAddress.len)
    (h3def : h.write w i v = some h3) :
    heap.SerializeBytes h3 a = heap.SerializeBytes h a := by
  unfold heap.Heap.write at h3def
  by_cases hi : i < w.len
  · rw [if_pos hi] at h3def
    have h3eq := Option.some.inj h3def
    have hread : h3.read a.cryptoAddress = h.read a.cryptoAddress := by
      rw [← h3eq]
      simp only [heap.Heap.read, Function.update_noteq (Ne.symm hw)]
    have hnext : h3.next = h.next := by rw [← h3eq]
    rw [heap.SerializeBytes_eq h3 a (by rw [hnext]; exact hfresh) (by rw [hread]; exact hwf),
      heap.SerializeBytes_eq h a hfresh hwf, hread]
  · rw [if_neg hi] at h3def
    cases h3def

theorem heap.Heap.read_write_same (h h3 : heap.Heap) (s : heap.Slice) (i : Nat) (v : Byte)
    (hw : h.write s i v = some h3) :
    h3.read s = (h.read s).set i v ∧ h3.next = h.next := by
  unfold heap.Heap.write at hw
  by_cases hi : i < s.len
  · rw [if_pos hi] at hw
    rw [← Option.some.inj hw]
    simp only [heap.Heap.read, Function.update_same, and_true]
    rw [← List.set_drop, List.set_take]
  · rw [if_neg hi] at hw
    cases hw

/-- C17 (as amended): for every address obtained from a successful `Deserialize(b)`,
a later write by the caller to the buffer `b`, or through any slice of an array that
existed before the call, does not change what the address's `Serialize()` returns,
which is the content `b` had at the call: `Deserialize` stores a copy of its own. The
slice returned by `CryptoAddress()` is the storage of the address itself: a write
through it is a write to the crypto-address that `Serialize()` returns. -/
theorem Deserialize_owns_its_copy (h : heap.Heap) (a : heap.InstanceAddress)
    (b w : heap.Slice) (i : Nat) (v : Byte) (hlen : 1 < b.len) (hb : b.arr < h.next)
    (hwf : b.off + b.len ≤ (h.arrays b.arr).length) (hw : w.arr < h.next) :
    (heap.Deserialize h a b).2.2 = none ∧
    heap.SerializeBytes (heap.Deserialize h a b).1 (heap.Deserialize h a b).2.1 =
      Serialize ⟨(h.read b).getD 0 0, (h.read b).drop 1⟩ ∧
    (∀ h3, (heap.Deserialize h a b).1.write w i v = some h3 →
      heap.SerializeBytes h3 (heap.Deserialize h a b).2.1 =
        heap.SerializeBytes (heap.Deserialize h a b).1 (heap.Deserialize h a b).2.1) ∧
    (∀ h3, (heap.Deserialize h a b).1.write
        (heap.CryptoAddress (heap.Deserialize h a b).2.1) i v = some h3 →
      heap.SerializeBytes h3 (heap.Deserialize h a b).2.1 =
        Serialize ⟨(h.read b).getD 0 0, ((h.read b).drop 1).set i v⟩) := by
  obtain ⟨heq, hnext, hread, hl⟩ := heap.Deserialize_ok h a b hlen hb hwf
  generalize (heap.Deserialize h a b).1 = h2 at heq hnext hread
  rw [heq]
  have hfresh : (⟨h.next, 0, b.len - 1⟩ : heap.Slice).arr ≠ h2.next := by
    rw [hnext]; simp
  have hwf2 : (h2.read ⟨h.next, 0, b.len - 1⟩).length = b.len - 1 := by rw [hread, hl]
  have hser : heap.SerializeBytes h2 ⟨(h.read b).getD 0 0, ⟨h.next, 0, b.len - 1⟩⟩ =
      Serialize ⟨(h.read b).getD 0 0, (h.read b).drop 1⟩ := by
    rw [heap.SerializeBytes_eq h2 _ hfresh hwf2]
    simp only [hread]
  refine ⟨rfl, hser, ?_, ?_⟩
  · intro h3 h3def
    exact heap.SerializeBytes_write_other h2 h3 _ w i v (by simp; omega) hfresh hwf2 h3def
  · intro h3 h3def
    obtain ⟨hr3, hn3⟩ := heap.Heap.read_write_same h2 h3 _ i v h3def
    simp only [heap.CryptoAddress] at hr3
    rw [heap.SerializeBytes_eq h3 _ (by rw [hn3]; exact hfresh)
      (by simp only [hr3, List.length_set]; exact hwf2)]
    simp only [hr3, hread]

theorem Deserialize_owns_its_copy_witness :
    (heap.Deserialize heap.heap012 ⟨7, ⟨0, 0, 0⟩⟩ ⟨0, 0, 3⟩).2.2 = none ∧
    heap.SerializeBytes (heap.Deserialize heap.heap012 ⟨7, ⟨0, 0, 0⟩⟩ ⟨0, 0, 3⟩).1
        (heap.Deserialize heap.heap012 ⟨7, ⟨0, 0, 0⟩⟩ ⟨0, 0, 3⟩).2.1 =
      Serialize ⟨(heap.heap012.read ⟨0, 0, 3⟩).getD 0 0, (heap.heap012.read ⟨0, 0, 3⟩).drop 1⟩ ∧
    (∀ h3, (heap.Deserialize heap.heap012 ⟨7, ⟨0, 0, 0⟩⟩ ⟨0, 0, 3⟩).1.write ⟨0, 0, 3⟩ 1 9 =
        some h3 →
      heap.SerializeBytes h3 (heap.Deserialize heap.heap012 ⟨7, ⟨0, 0, 0⟩⟩ ⟨0, 0, 3⟩).2.1 =
        heap.SerializeBytes (heap.Deserialize heap.heap012 ⟨7, ⟨0, 0, 0⟩⟩ ⟨0, 0, 3⟩).1
          (heap.Deserialize heap.heap012 ⟨7, ⟨0, 0, 0⟩⟩ ⟨0, 0, 3⟩).2.1) ∧
    (∀ h3, (heap.Deserialize heap.heap012 ⟨7, ⟨0, 0, 0⟩⟩ ⟨0, 0, 3⟩).1.write
        (heap.CryptoAddress (heap.Deserialize heap.heap012 ⟨7, ⟨0, 0, 0⟩⟩ ⟨0, 0, 3⟩).2.1) 1 9 =
        some h3 →
      heap.SerializeBytes h3 (heap.Deserialize heap.heap012 ⟨7, ⟨0, 0, 0⟩⟩ ⟨0, 0, 3⟩).2.1 =
        Serialize ⟨(heap.heap012.read ⟨0, 0, 3⟩).getD 0 0,
          ((heap.heap012.read ⟨0, 0, 3⟩).drop 1).set 1 9⟩) :=
  Deserialize_owns_its_copy heap.heap012 ⟨7, ⟨0, 0, 0⟩⟩ ⟨0, 0, 3⟩ ⟨0, 0, 3⟩ 1 9
    (by decide) (by decide) (by decide) (by decide)

/-- C17 fails as stated. (1) After `Deserialize` of the buffer `00 01 02` the address
serializes to `00 01 02`; writing `0x09` at index 0 of the slice that `CryptoAddress()`
returns makes `Serialize()` return `00 09 02`. (2) The address made by
`NewInstanceAddress(0x05, c)` from the caller's slice `c = 00 01 02` serializes to
`05 00 01 02`; after the caller writes `0x09` to `c[0]` it serializes to
`05 09 01 02`. -/
theorem caller_writes_reach_the_address :
    ((heap.Deserialize heap.heap012 ⟨7, ⟨0, 0, 0⟩⟩ ⟨0, 0, 3⟩).2.2 = none ∧
      heap.SerializeBytes (heap.Deserialize heap.heap012 ⟨7, ⟨0, 0, 0⟩⟩ ⟨0, 0, 3⟩).1
        (heap.Deserialize heap.heap012 ⟨7, ⟨0, 0, 0⟩⟩ ⟨0, 0, 3⟩).2.1 = some [0, 1, 2] ∧
      ((heap.Deserialize heap.heap012 ⟨7, ⟨0, 0, 0⟩⟩ ⟨0, 0, 3⟩).1.write
        (heap.CryptoAddress (heap.Deserialize heap.heap012 ⟨7, ⟨0, 0, 0⟩⟩ ⟨0, 0, 3⟩).2.1)
        0 9).bind (fun h3 => heap.SerializeBytes h3
          (heap.Deserialize heap.heap012 ⟨7, ⟨0, 0, 0⟩⟩ ⟨0, 0, 3⟩).2.1) = some [0, 9, 2]) ∧
    (heap.SerializeBytes heap.heap012 (heap.NewInstanceAddress 5 ⟨0, 0, 3⟩) =
        some [5, 0, 1, 2] ∧
      (heap.heap012.write ⟨0, 0, 3⟩ 0 9).bind (fun h3 => heap.SerializeBytes h3
        (heap.NewInstanceAddress 5 ⟨0, 0, 3⟩)) = some [5, 9, 1, 2]) := by
  refine ⟨⟨by decide, by decide, by decide⟩, by decide, by decide⟩
